import Mathlib

/-
Verification of the `iot` lattice decoder core (`src/iot/dec-core.cc`,
`src/iot/dec-core.h`).

Shallow embedding notes.
* A `Token*` pointer is modelled by a numeric id (`TokId`); the token store
  is a total function `TokId → Token`.  A frame's intrusive `next`-list is
  modelled by a `List TokId`; the head of the list is the most recently
  prepended token, exactly as in the source.
* `BaseFloat` values that can become infinite (`extra_cost`, final costs,
  cutoffs) are modelled as `Option ℚ`, with `none` playing `+infinity`.
  Comparisons follow IEEE semantics for `+infinity`; the source never
  produces NaN on the paths modelled here (the one guarded spot,
  `best_cost_with_final - best_cost` with both infinite, is guarded in the
  source and in the model alike).
* The WFST and its final weights are external collaborators; they enter as
  oracle functions (`arcsOf`, `finalOf`).  `finalOf` returns the summed
  `la` + `lm` final cost of a composed state, `none` meaning infinite.
  The model corresponds to the `lm_fst_ == NULL` configuration, in which a
  `ViterbiState` is just the `la` state id.
-/

namespace DecCoreM

/-- Token identifier: models a `Token*` pointer by a numeric id. -/
abbrev TokId := Nat

/-- A possibly infinite `BaseFloat` cost; `none` is `+infinity`. -/
abbrev CostF := Option ℚ

/-- Strict `<` on costs with `none` as `+infinity` (IEEE semantics). -/
def cLtB : CostF → CostF → Bool
  | none, _ => false
  | some _, none => true
  | some a, some b => decide (a < b)

/-- Non-strict `≤` on costs with `none` as `+infinity`. -/
def cLeB : CostF → CostF → Bool
  | some _, none => true
  | none, none => true
  | none, some _ => false
  | some a, some b => decide (a ≤ b)

/-- Cost addition; `+infinity` absorbs. -/
def cAdd : CostF → CostF → CostF
  | some a, some b => some (a + b)
  | _, _ => none

/-- Cost subtraction as used in `ComputeFinalCosts`: `infinity - finite`
is `infinity`.  The `x - infinity` cases never arise on the guarded source
path and are mapped to `none`. -/
def cSub : CostF → CostF → CostF
  | some a, some b => some (a - b)
  | none, some _ => none
  | _, none => none

/-- The C++ `std::min(a, b)`: returns `b` when `b < a`, else `a`. -/
def cMin (a b : CostF) : CostF :=
  if cLtB b a then b else a

/-- The test `fabs(a - b) > delta` on possibly infinite floats: a NaN
difference (`inf - inf`) compares false, a finite-vs-infinite difference is
infinite and compares true. -/
def cDistGtB (a b : CostF) (delta : ℚ) : Bool :=
  match a, b with
  | some x, some y => decide (delta < |x - y|)
  | none, none => false
  | _, _ => true

/-- Kaldi `ApproxEqual(a, b, tol)`: equal values (also two infinities)
compare true, an infinite difference compares false, otherwise
`|a-b| ≤ tol * (|a|+|b|)`. -/
def cApproxEqB (a b : CostF) (tol : ℚ) : Bool :=
  match a, b with
  | some x, some y => decide (x = y) || decide (|x - y| ≤ tol * (|x| + |y|))
  | none, none => true
  | _, _ => false

/-- One kept forward link of a token (`struct ForwardLink`). -/
structure ForwardLink where
  dst_tok : TokId
  ilabel : Nat
  olabel : Nat
  graph_cost : ℚ
  acoustic_cost : ℚ
  deriving DecidableEq, Repr

/-- One token (`struct Token`).  The intrusive `next` pointer is modelled
by the frame's `List TokId`, not stored in the token. -/
structure Token where
  total_cost : ℚ
  extra_cost : CostF
  links : List ForwardLink
  backpointer : Option TokId
  deriving DecidableEq, Repr

/-- The token store: total map from token ids to token records. -/
abbrev Store := TokId → Token

/-- Pointwise update of the token store. -/
def updateStore (st : Store) (i : TokId) (tok : Token) : Store :=
  fun j => if j = i then tok else st j

/-- Association-list lookup keyed by `Nat` (models hash-map `find`). -/
def lookupA {α : Type} : List (Nat × α) → Nat → Option α
  | [], _ => none
  | (k, v) :: rest, key => if key = k then some v else lookupA rest key

/-- One arc of the decoding WFST as enumerated by the graph oracle. -/
structure WfstArc where
  ilabel : Nat
  olabel : Nat
  weight : ℚ
  dst : Nat
  deriving DecidableEq, Repr

/-- The decoder state (`class DecCore` data members used by the claims).
`tokenNet` is `token_net_` (frame-indexed token lists), `tokenSet` the
Active Index `token_set_` as an association list from `ViterbiState` to
token id, `queue` the work list `queue_` with `push_back`/`back`/`pop_back`
modelled by cons/head, `nextId` the allocator's next fresh token id. -/
structure DecState where
  tokenNet : List (List TokId)
  store : Store
  tokenSet : List (Nat × TokId)
  queue : List Nat
  costOffsets : List ℚ
  numToks : ℤ
  nextId : TokId
  decodingFinalized : Bool
  finalCosts : List (TokId × ℚ)
  finalRelativeCost : CostF
  finalBestCost : CostF

/-- The loop of `DecCore::ComputeFinalCosts` over the Active Index list:
accumulates the `final_costs` map, `best_cost` and `best_cost_with_final`.
`finalOf` is the graph oracle's summed final cost (`la` plus `lm`). -/
def ComputeFinalCostsLoop (finalOf : Nat → CostF) (store : Store) :
    List (Nat × TokId) → List (TokId × ℚ) → CostF → CostF →
    List (TokId × ℚ) × CostF × CostF
  | [], fc, best, bwf => (fc, best, bwf)
  | (state, tid) :: rest, fc, best, bwf =>
    let cost : ℚ := (store tid).total_cost
    let final_cost : CostF := finalOf state
    let cost_with_final : CostF := cAdd (some cost) final_cost
    let best2 := cMin (some cost) best
    let bwf2 := cMin cost_with_final bwf
    let fc2 := match final_cost with
      | some c => fc ++ [(tid, c)]
      | none => fc
    ComputeFinalCostsLoop finalOf store rest fc2 best2 bwf2

/-- `DecCore::ComputeFinalCosts`: returns the `final_costs` map, the
`final_relative_cost` and the `final_best_cost` outputs. -/
def ComputeFinalCosts (finalOf : Nat → CostF) (store : Store)
    (tokenSet : List (Nat × TokId)) :
    List (TokId × ℚ) × CostF × CostF :=
  let r := ComputeFinalCostsLoop finalOf store tokenSet [] none none
  let best := r.2.1
  let bwf := r.2.2
  let frc : CostF := if best = none ∧ bwf = none then none else cSub bwf best
  let fbc : CostF := if bwf ≠ none then bwf else best
  (r.1, frc, fbc)

/-- `DecCore::FinalRelativeCost`: recomputed while decoding is live,
cached after finalization. -/
def FinalRelativeCost (finalOf : Nat → CostF) (s : DecState) : CostF :=
  if s.decodingFinalized = false then
    (ComputeFinalCosts finalOf s.store s.tokenSet).2.1
  else
    s.finalRelativeCost

/-- `DecCore::FindOrAddToken(state, t, total_cost, backpointer, changed)`.
Returns the updated decoder state, the found-or-created token id and the
`changed` output flag.  A fresh token gets `extra_cost = 0`, an empty link
list, is prepended to frame `t`, inserted into the Active Index and counted
in `num_toks_`; a found token is updated (cost and backpointer only) when
the incoming cost improves on it. -/
def FindOrAddToken (s : DecState) (state : Nat) (t : Nat)
    (total_cost : ℚ) (backpointer : Option TokId) :
    DecState × TokId × Bool :=
  let toks := s.tokenNet.getD t []
  match lookupA s.tokenSet state with
  | none =>
    let extra_cost : ℚ := 0
    let newTok : Token := ⟨total_cost, some extra_cost, [], backpointer⟩
    let s1 : DecState :=
      { s with
        store := updateStore s.store s.nextId newTok,
        tokenNet := s.tokenNet.set t (s.nextId :: toks),
        tokenSet := (state, s.nextId) :: s.tokenSet,
        numToks := s.numToks + 1,
        nextId := s.nextId + 1 }
    (s1, s.nextId, true)
  | some tid =>
    let tok := s.store tid
    if tok.total_cost > total_cost then
      let s1 : DecState :=
        { s with
          store := updateStore s.store tid
            { tok with total_cost := total_cost, backpointer := backpointer } }
      (s1, tid, true)
    else
      (s, tid, false)

/-- Insertion into a sorted list of costs; used to model the value
selected by `std::nth_element` in `GetCutoff`. -/
def insertSorted (x : ℚ) : List ℚ → List ℚ
  | [] => [x]
  | y :: ys => if x ≤ y then x :: y :: ys else y :: insertSorted x ys

/-- Full sort of the cost array; `std::nth_element(b, b+k, e)` places at
index `k` exactly the element that a full sort would place there, so the
model reads the `k`-th entry of the sorted array. -/
def sortCosts : List ℚ → List ℚ
  | [] => []
  | x :: xs => insertSorted x (sortCosts xs)

/-- The `int32` maximum, the default (and sentinel) value of
`max_active`. -/
def int32max : Nat := 2147483647

/-- The configuration fields that `GetCutoff` reads. -/
structure CutoffConfig where
  beam : ℚ
  max_active : Nat
  min_active : Nat
  beam_delta : ℚ

/-- The running minimum over the snapshot computed by both branches of
`GetCutoff` (`if (w < best_weight) best_weight = w`). -/
def bestWeightOf (costs : List ℚ) : CostF :=
  costs.foldl (fun b w => cMin (some w) b) none

/-- `DecCore::GetCutoff` on the snapshot of the previous frame's token
costs (`e->val->total_cost` in list order).  Returns the cutoff and the
adaptive beam.  `best_weight` is `+infinity` only on an empty snapshot, in
which case no branch performs arithmetic on it. -/
def GetCutoff (cfg : CutoffConfig) (costs : List ℚ) : CostF × ℚ :=
  let best_weight : CostF := bestWeightOf costs
  if cfg.max_active = int32max ∧ cfg.min_active = 0 then
    (cAdd best_weight (some cfg.beam), cfg.beam)
  else
    let tmp_array := sortCosts costs
    let beam_cutoff := cAdd best_weight (some cfg.beam)
    let max_active_cutoff : CostF :=
      if cfg.max_active < costs.length then
        some (tmp_array.getD cfg.max_active 0)
      else none
    if cLtB max_active_cutoff beam_cutoff then
      (max_active_cutoff,
       max_active_cutoff.getD 0 - best_weight.getD 0 + cfg.beam_delta)
    else
      let min_active_cutoff : CostF :=
        if cfg.min_active < costs.length then
          if cfg.min_active = 0 then best_weight
          else some (tmp_array.getD cfg.min_active 0)
        else none
      if cLtB beam_cutoff min_active_cutoff then
        (min_active_cutoff,
         min_active_cutoff.getD 0 - best_weight.getD 0 + cfg.beam_delta)
      else
        (beam_cutoff, cfg.beam)

/-- The raw `link_extra_cost` of a link of token `tid`:
`dst.extra_cost + (tok.total_cost + acoustic + graph - dst.total_cost)`. -/
def LinkExtraCost (store : Store) (tid : TokId) (l : ForwardLink) : CostF :=
  cAdd (store l.dst_tok).extra_cost
    (some ((store tid).total_cost + l.acoustic_cost + l.graph_cost
           - (store l.dst_tok).total_cost))

/-- The clamp applied by the pruner: negative residuals become 0. -/
def cClamp0 (c : CostF) : CostF :=
  if cLtB c (some 0) then some 0 else c

/-- The inner link loop of `DecCore::PruneForwardLinks` for one token:
walks the links with the running `tok_extra_cost` accumulator, excising
links whose `link_extra_cost` exceeds `lattice_beam`, clamping negative
values to 0 and taking the minimum over kept links.  Returns the kept
links, the new `tok_extra_cost` and whether any link was pruned. -/
def PruneLinksOfToken (beam : ℚ) (store : Store) (tid : TokId)
    (acc : CostF) : List ForwardLink → List ForwardLink × CostF × Bool
  | [] => ([], acc, false)
  | l :: ls =>
    let lec := LinkExtraCost store tid l
    if cLtB (some beam) lec then
      let r := PruneLinksOfToken beam store tid acc ls
      (r.1, r.2.1, true)
    else
      let lec2 := cClamp0 lec
      let acc2 := if cLtB lec2 acc then lec2 else acc
      let r := PruneLinksOfToken beam store tid acc2 ls
      (l :: r.1, r.2.1, r.2.2)

/-- One sweep of the `while (changed)` loop body of
`DecCore::PruneForwardLinks`: processes the frame's tokens in list order,
threading the store.  Returns the updated store, whether any token's
`extra_cost` moved by more than `delta`, and whether any link was
pruned. -/
def PruneForwardLinksPass (beam delta : ℚ) (store : Store) :
    List TokId → Store × Bool × Bool
  | [] => (store, false, false)
  | tid :: rest =>
    let tok := store tid
    let r := PruneLinksOfToken beam store tid none tok.links
    let changedTok := cDistGtB r.2.1 tok.extra_cost delta
    let store1 := updateStore store tid
      { tok with links := r.1, extra_cost := r.2.1 }
    let rec2 := PruneForwardLinksPass beam delta store1 rest
    (rec2.1, changedTok || rec2.2.1, r.2.2 || rec2.2.2)

/-- `DecCore::PruneForwardLinks(t, ...)`: iterate sweeps until a sweep
reports no change.  `fuel` bounds the number of sweeps (the source loop
has no explicit bound); `none` means the bound was hit.  Returns the final
store and the accumulated `links_pruned` flag. -/
def PruneForwardLinksLoop (beam delta : ℚ) (toks : List TokId) :
    Nat → Store → Option (Store × Bool)
  | 0, _ => none
  | fuel + 1, store =>
    let r := PruneForwardLinksPass beam delta store toks
    if r.2.1 then
      match PruneForwardLinksLoop beam delta toks fuel r.1 with
      | none => none
      | some (st, lp) => some (st, r.2.2 || lp)
    else
      some (r.1, r.2.2)

/-- `DecCore::PruneTokenList(t)`: removes from the frame list every token
whose `extra_cost` is `+infinity`, decrementing `num_toks_` per removal.
Returns the new frame list and the new token count. -/
def PruneTokenList (store : Store) : List TokId → ℤ → List TokId × ℤ
  | [], n => ([], n)
  | tid :: rest, n =>
    if (store tid).extra_cost = none then
      PruneTokenList store rest (n - 1)
    else
      let r := PruneTokenList store rest n
      (tid :: r.1, r.2)

/-- One sweep of the `while (changed)` loop of
`DecCore::PruneForwardLinksFinal`: like the plain sweep but
`tok_extra_cost` starts at `tok.total_cost + final_cost - final_best_cost`
(with `final_cost = 0` when the final-cost map is empty and `+infinity`
when the token is absent from a non-empty map), any token ending above
`lattice_beam` is sent to `+infinity`, and change detection uses
`ApproxEqual` with tolerance `1.0e-05`. -/
def PruneForwardLinksFinalPass (beam : ℚ) (finalCosts : List (TokId × ℚ))
    (fbc : CostF) (store : Store) : List TokId → Store × Bool
  | [] => (store, false)
  | tid :: rest =>
    let tok := store tid
    let final_cost : CostF :=
      if finalCosts.isEmpty then some 0
      else match lookupA finalCosts tid with
        | some c => some c
        | none => none
    let tokExtra0 := cSub (cAdd (some tok.total_cost) final_cost) fbc
    let r := PruneLinksOfToken beam store tid tokExtra0 tok.links
    let newExtra : CostF := if cLtB (some beam) r.2.1 then none else r.2.1
    let changedTok := !cApproxEqB tok.extra_cost newExtra (1 / 100000)
    let store1 := updateStore store tid
      { tok with links := r.1, extra_cost := newExtra }
    let rec2 := PruneForwardLinksFinalPass beam finalCosts fbc store1 rest
    (rec2.1, changedTok || rec2.2)

/-- The `while (changed)` loop of `DecCore::PruneForwardLinksFinal`,
bounded by `fuel` sweeps. -/
def PruneForwardLinksFinalLoop (beam : ℚ) (finalCosts : List (TokId × ℚ))
    (fbc : CostF) (toks : List TokId) : Nat → Store → Option Store
  | 0, _ => none
  | fuel + 1, store =>
    let r := PruneForwardLinksFinalPass beam finalCosts fbc store toks
    if r.2 then PruneForwardLinksFinalLoop beam finalCosts fbc toks fuel r.1
    else some r.1

/-- `DecCore::PruneForwardLinksFinal`: asserts the token net is non-empty,
computes and caches the final costs (`ComputeFinalCosts` itself asserts
`!decoding_finalized_`), sets `decoding_finalized_`, clears the Active
Index, and runs the final pruning sweeps on the last frame.  `none` models
a failed assertion or exhausted sweep bound. -/
def PruneForwardLinksFinal (finalOf : Nat → CostF) (beam : ℚ) (fuel : Nat)
    (s : DecState) : Option DecState :=
  if s.tokenNet.isEmpty then none
  else if s.decodingFinalized then none
  else
    let cfc := ComputeFinalCosts finalOf s.store s.tokenSet
    let s1 : DecState :=
      { s with
        decodingFinalized := true,
        finalCosts := cfc.1,
        finalRelativeCost := cfc.2.1,
        finalBestCost := cfc.2.2,
        tokenSet := [] }
    let end_time := s.tokenNet.length - 1
    match PruneForwardLinksFinalLoop beam cfc.1 cfc.2.2
        (s.tokenNet.getD end_time []) fuel s1.store with
    | none => none
    | some st => some { s1 with store := st }

/-- The backward sweep of `DecCore::FinalizeDecoding`: for
`t = end_time - 1` down to `0`, run `PruneForwardLinks(t, delta = 0)`
followed by `PruneTokenList(t + 1)`.  The argument counts the frames still
to process, so the call with `end_time` processes `t = end_time - 1, ...,
0`. -/
def FinalizeSweep (beam : ℚ) (fuel : Nat) : Nat → DecState → Option DecState
  | 0, s => some s
  | t + 1, s =>
    let frame := s.tokenNet.getD t []
    match PruneForwardLinksLoop beam 0 frame fuel s.store with
    | none => none
    | some (st, _) =>
      let s1 : DecState := { s with store := st }
      let pr := PruneTokenList s1.store (s1.tokenNet.getD (t + 1) []) s1.numToks
      let s2 : DecState :=
        { s1 with tokenNet := s1.tokenNet.set (t + 1) pr.1, numToks := pr.2 }
      FinalizeSweep beam fuel t s2

/-- `DecCore::FinalizeDecoding`: `PruneForwardLinksFinal`, then the
backward sweep, then `PruneTokenList(0)`. -/
def FinalizeDecoding (finalOf : Nat → CostF) (beam : ℚ) (fuel : Nat)
    (s : DecState) : Option DecState :=
  let end_time := s.tokenNet.length - 1
  match PruneForwardLinksFinal finalOf beam fuel s with
  | none => none
  | some s1 =>
    match FinalizeSweep beam fuel end_time s1 with
    | none => none
    | some s2 =>
      let pr := PruneTokenList s2.store (s2.tokenNet.getD 0 []) s2.numToks
      some { s2 with tokenNet := s2.tokenNet.set 0 pr.1, numToks := pr.2 }

/-- A lattice arc as emitted by the traceback:
`(ilabel, olabel, LatticeWeight(graph_cost, acoustic_cost))`. -/
structure LatticeArcM where
  ilabel : Nat
  olabel : Nat
  graph_cost : ℚ
  acoustic_cost : ℚ
  deriving DecidableEq, Repr

/-- `DecCore::TraceBackBestPath(iter, oarc)`.  The iterator is the pair of
an optional token id (`none` is `Done()`) and the frame index; the input
iterator must not be `Done`, so its token is passed directly.  `none`
models `KALDI_ERR` (backpointer present but no link reaches the token) or
the failed assertion `cur_t < cost_offsets_.size()`. -/
def TraceBackBestPath (store : Store) (costOffsets : List ℚ)
    (tid : TokId) (frame : ℤ) :
    Option ((Option TokId × ℤ) × LatticeArcM) :=
  match (store tid).backpointer with
  | none => some ((none, frame), ⟨0, 0, 0, 0⟩)
  | some bp =>
    match (store bp).links.find? (fun l => l.dst_tok == tid) with
    | none => none
    | some l =>
      if l.ilabel ≠ 0 then
        if 0 ≤ frame ∧ frame.toNat < costOffsets.length then
          some ((some bp, frame - 1),
            ⟨l.ilabel, l.olabel, l.graph_cost,
             l.acoustic_cost - costOffsets.getD frame.toNat 0⟩)
        else none
      else
        some ((some bp, frame),
          ⟨l.ilabel, l.olabel, l.graph_cost, l.acoustic_cost⟩)

/-- The body of the arc loop of `DecCore::ProcessNonemitting` for one
epsilon arc of the popped state: compute `total_cost`, and if it beats the
cutoff, `FindOrAddToken` on the same frame, prepend a `ForwardLink` with
`ilabel = 0` and acoustic cost `0` to the popped token, and push the
destination state when `changed` is reported. -/
def NEArcStep (cutoff : ℚ) (t : Nat) (tid : TokId) (s : DecState)
    (arc : WfstArc) : DecState :=
  if arc.ilabel = 0 then
    let total_cost := (s.store tid).total_cost + arc.weight
    if total_cost < cutoff then
      let r := FindOrAddToken s arc.dst t total_cost (some tid)
      let s1 := r.1
      let tok1 := s1.store tid
      let tok2 : Token :=
        { tok1 with links := ⟨r.2.1, 0, arc.olabel, arc.weight, 0⟩ :: tok1.links }
      let s2 : DecState := { s1 with store := updateStore s1.store tid tok2 }
      if r.2.2 then { s2 with queue := arc.dst :: s2.queue } else s2
    else s
  else s

/-- The body of the work-queue loop of `DecCore::ProcessNonemitting` for
one popped state: skip if the token's cost exceeds the cutoff, otherwise
delete all its forward links and re-expand its epsilon arcs.  The source
dereferences `token_set_.Find(state)` unconditionally; every queued state
is present in the index, and an absent state is modelled as a no-op. -/
def ProcessNonemittingStep (arcsOf : Nat → List WfstArc) (cutoff : ℚ)
    (t : Nat) (s : DecState) (state : Nat) : DecState :=
  match lookupA s.tokenSet state with
  | none => s
  | some tid =>
    if (s.store tid).total_cost > cutoff then s
    else
      let tok := s.store tid
      let s1 : DecState :=
        { s with store := updateStore s.store tid { tok with links := [] } }
      (arcsOf state).foldl (NEArcStep cutoff t tid) s1

/-- Association-list value update keyed by `Nat` (no-op on absent key). -/
def setA {α : Type} : List (Nat × α) → Nat → α → List (Nat × α)
  | [], _, _ => []
  | (k, v) :: rest, key, nv =>
    if key = k then (key, nv) :: rest else (k, v) :: setA rest key nv

/-- State of `DecCore::TopSortTokens`: the `token2pos` map, the next free
position `cur_pos` and the `reprocess` set (as a duplicate-free list). -/
structure TSState where
  token2pos : List (TokId × Nat)
  cur_pos : Nat
  reprocess : List TokId

/-- The shared inner loop of `TopSortTokens`: examine each epsilon link of
`tok`; a destination placed before `tok` is reassigned to a fresh position
and queued for reprocessing.  The source reads `pos` once before the
loop. -/
def tsProcessTok (store : Store) (st : TSState) (tok : TokId) : TSState :=
  let pos := (lookupA st.token2pos tok).getD 0
  (store tok).links.foldl
    (fun acc l =>
      if l.ilabel = 0 then
        match lookupA acc.token2pos l.dst_tok with
        | some next_pos =>
          if next_pos < pos then
            { token2pos := setA acc.token2pos l.dst_tok acc.cur_pos,
              cur_pos := acc.cur_pos + 1,
              reprocess :=
                if acc.reprocess.contains l.dst_tok then acc.reprocess
                else acc.reprocess ++ [l.dst_tok] }
          else acc
        | none => acc
      else acc)
    st

/-- The first sweep of `TopSortTokens` over all tokens of the frame; after
processing a token it is erased from the reprocess set. -/
def tsFirstSweep (store : Store) (toks : List TokId) (st : TSState) : TSState :=
  toks.foldl
    (fun acc tok =>
      let acc2 := tsProcessTok store acc tok
      { acc2 with reprocess := acc2.reprocess.filter (fun x => !(x == tok)) })
    st

/-- The bounded reprocessing loop of `TopSortTokens`; in the source the
bound is `max_loop = 1000000` iterations, and exhausting it with a
non-empty reprocess set is the fatal epsilon-cycle assertion (`none`). -/
def tsReprocessLoop (store : Store) (fuel : Nat) (st : TSState) :
    Option TSState :=
  if st.reprocess.isEmpty then some st
  else
    match fuel with
    | 0 => none
    | fuel2 + 1 =>
      let vec := st.reprocess
      let st1 := { st with reprocess := ([] : List TokId) }
      let st2 := vec.foldl (tsProcessTok store) st1
      tsReprocessLoop store fuel2 st2

/-- `DecCore::TopSortTokens`: initial positions are the reverse list
positions, then reassignment until stable; the output vector has
`cur_pos` slots, unassigned slots holding `none`. -/
def TopSortTokens (store : Store) (tokList : List TokId) :
    Option (List (Option TokId)) :=
  let num_toks := tokList.length
  let token2pos := tokList.enum.map (fun p => (p.2, num_toks - 1 - p.1))
  let st0 : TSState := ⟨token2pos, num_toks, []⟩
  let st1 := tsFirstSweep store tokList st0
  match tsReprocessLoop store 1000000 st1 with
  | none => none
  | some st2 =>
    some (st2.token2pos.foldl
      (fun out p => out.set p.2 (some p.1))
      (List.replicate st2.cur_pos none))

/-- The output lattice observed through the operations the source uses:
`AddState` (counted), `SetStart`, `AddArc` and `SetFinal`. -/
structure RawLat where
  numStates : Nat
  start : Option Nat
  arcs : List (Nat × LatticeArcM × Nat)
  finals : List (Nat × ℚ × ℚ)
  deriving DecidableEq, Repr

/-- The state-creation loop of `DecCore::GetRawLattice`: per frame, warn
and return `false` on an empty frame, otherwise topologically sort the
frame and allocate one output state per token.  `none` is the epsilon
cycle assertion inside `TopSortTokens`. -/
def GRLCreateStates (store : Store) :
    List (List TokId) → RawLat → List (TokId × Nat) →
    Option (Bool × RawLat × List (TokId × Nat))
  | [], lat, tokMap => some (true, lat, tokMap)
  | frame :: rest, lat, tokMap =>
    if frame.isEmpty then some (false, lat, tokMap)
    else
      match TopSortTokens store frame with
      | none => none
      | some sorted =>
        let r := sorted.foldl
          (fun (acc : RawLat × List (TokId × Nat)) o =>
            match o with
            | none => acc
            | some tk =>
              ({ acc.1 with numStates := acc.1.numStates + 1 },
               acc.2 ++ [(tk, acc.1.numStates)]))
          (lat, tokMap)
        GRLCreateStates store rest r.1 r.2

/-- The link loop of the arc-emission phase of `GetRawLattice` for one
token: `none` models the assertion that the destination token has an
output state, and the assertion `f < cost_offsets_.size()` on emitting
links. -/
def GRLLinksLoop (costOffsets : List ℚ) (tokMap : List (TokId × Nat))
    (f : Nat) (cur_state : Nat) :
    List ForwardLink → RawLat → Option RawLat
  | [], lat => some lat
  | l :: ls, lat =>
    match lookupA tokMap l.dst_tok with
    | none => none
    | some nextstate =>
      if l.ilabel ≠ 0 then
        if f < costOffsets.length then
          GRLLinksLoop costOffsets tokMap f cur_state ls
            { lat with arcs := lat.arcs ++
                [(cur_state,
                  ⟨l.ilabel, l.olabel, l.graph_cost,
                   l.acoustic_cost - costOffsets.getD f 0⟩, nextstate)] }
        else none
      else
        GRLLinksLoop costOffsets tokMap f cur_state ls
          { lat with arcs := lat.arcs ++
              [(cur_state,
                ⟨l.ilabel, l.olabel, l.graph_cost, l.acoustic_cost⟩,
                nextstate)] }

/-- The token loop of the arc-emission phase of `GetRawLattice` for one
frame `f`; on the last frame final weights are attached. -/
def GRLTokLoop (store : Store) (costOffsets : List ℚ)
    (tokMap : List (TokId × Nat)) (useFinal : Bool)
    (finalCosts : List (TokId × ℚ)) (f numFrames : Nat) :
    List TokId → RawLat → Option RawLat
  | [], lat => some lat
  | tok :: rest, lat =>
    let cur_state := (lookupA tokMap tok).getD 0
    match GRLLinksLoop costOffsets tokMap f cur_state (store tok).links lat with
    | none => none
    | some lat1 =>
      let lat2 :=
        if f = numFrames then
          if useFinal ∧ ¬ finalCosts.isEmpty then
            match lookupA finalCosts tok with
            | some c => { lat1 with finals := lat1.finals ++ [(cur_state, c, 0)] }
            | none => lat1
          else { lat1 with finals := lat1.finals ++ [(cur_state, 0, 0)] }
        else lat1
      GRLTokLoop store costOffsets tokMap useFinal finalCosts f numFrames rest lat2

/-- The frame loop of the arc-emission phase of `GetRawLattice`. -/
def GRLFrameLoop (store : Store) (costOffsets : List ℚ)
    (tokMap : List (TokId × Nat)) (useFinal : Bool)
    (finalCosts : List (TokId × ℚ)) (numFrames : Nat) :
    Nat → List (List TokId) → RawLat → Option RawLat
  | _, [], lat => some lat
  | f, frame :: rest, lat =>
    match GRLTokLoop store costOffsets tokMap useFinal finalCosts f numFrames
        frame lat with
    | none => none
    | some lat1 =>
      GRLFrameLoop store costOffsets tokMap useFinal finalCosts numFrames
        (f + 1) rest lat1

/-- `DecCore::GetRawLattice`: forbidden-call check, final-cost selection,
state creation per frame (early `false` on an empty frame), then arc
emission.  Returns the boolean result and the output lattice; `none`
models `KALDI_ERR` or a failed assertion. -/
def GetRawLattice (finalOf : Nat → CostF) (s : DecState) (useFinal : Bool) :
    Option (Bool × RawLat) :=
  if s.decodingFinalized ∧ useFinal = false then none
  else
    let finalCosts : List (TokId × ℚ) :=
      if s.decodingFinalized then s.finalCosts
      else if useFinal then (ComputeFinalCosts finalOf s.store s.tokenSet).1
      else []
    if s.tokenNet.length ≤ 1 then none
    else
      let numFrames := s.tokenNet.length - 1
      match GRLCreateStates s.store s.tokenNet ⟨0, none, [], []⟩ [] with
      | none => none
      | some (ok, lat1, tokMap) =>
        if ok = false then some (false, lat1)
        else
          let lat2 := { lat1 with start := some 0 }
          match GRLFrameLoop s.store s.costOffsets tokMap useFinal finalCosts
              numFrames 0 s.tokenNet lat2 with
          | none => none
          | some lat3 => some (decide (0 < lat3.numStates), lat3)

/-- The link loop of `DecCore::GetRawLatticePruned` for one popped token:
only destinations with `extra_cost < beam` are emitted; a new destination
gets a fresh state and is queued.  Returns the updated token map, the
queue additions (in push order) and the lattice. -/
def GRLPLinks (store : Store) (costOffsets : List ℚ) (beam : ℚ)
    (cur_state cur_frame : Nat) :
    List ForwardLink → List (TokId × Nat) → List (TokId × Nat) → RawLat →
    List (TokId × Nat) × List (TokId × Nat) × RawLat
  | [], tokMap, qadd, lat => (tokMap, qadd, lat)
  | l :: ls, tokMap, qadd, lat =>
    if cLtB (store l.dst_tok).extra_cost (some beam) then
      let next_frame := if l.ilabel = 0 then cur_frame else cur_frame + 1
      let cost_offset : ℚ :=
        if l.ilabel ≠ 0 then costOffsets.getD cur_frame 0 else 0
      match lookupA tokMap l.dst_tok with
      | none =>
        let nextstate := lat.numStates
        let tokMap2 := tokMap ++ [(l.dst_tok, nextstate)]
        let qadd2 := qadd ++ [(l.dst_tok, next_frame)]
        let lat2 :=
          { lat with
            numStates := lat.numStates + 1,
            arcs := lat.arcs ++
              [(cur_state,
                ⟨l.ilabel, l.olabel, l.graph_cost, l.acoustic_cost - cost_offset⟩,
                nextstate)] }
        GRLPLinks store costOffsets beam cur_state cur_frame ls tokMap2 qadd2 lat2
      | some nextstate =>
        let lat2 :=
          { lat with arcs := lat.arcs ++
              [(cur_state,
                ⟨l.ilabel, l.olabel, l.graph_cost, l.acoustic_cost - cost_offset⟩,
                nextstate)] }
        GRLPLinks store costOffsets beam cur_state cur_frame ls tokMap qadd lat2
    else
      GRLPLinks store costOffsets beam cur_state cur_frame ls tokMap qadd lat

/-- The BFS loop of `DecCore::GetRawLatticePruned` (FIFO queue), bounded
by `fuel` pops; `none` models a failed assertion or exhausted bound. -/
def GRLPLoop (store : Store) (costOffsets : List ℚ) (beam : ℚ)
    (useFinal : Bool) (finalCosts : List (TokId × ℚ)) (numFrames : Nat) :
    Nat → List (TokId × Nat) → List (TokId × Nat) → RawLat →
    Option RawLat
  | 0, queue, _, lat => if queue.isEmpty then some lat else none
  | _ + 1, [], _, lat => some lat
  | fuel + 1, (cur_tok, cur_frame) :: qrest, tokMap, lat =>
    if cur_frame ≤ costOffsets.length then
      match lookupA tokMap cur_tok with
      | none => none
      | some cur_state =>
        let r := GRLPLinks store costOffsets beam cur_state cur_frame
          (store cur_tok).links tokMap [] lat
        let lat1 := r.2.2
        let lat2 :=
          if cur_frame = numFrames then
            if useFinal ∧ ¬ finalCosts.isEmpty then
              match lookupA finalCosts cur_tok with
              | some c => { lat1 with finals := lat1.finals ++ [(cur_state, c, 0)] }
              | none => lat1
            else { lat1 with finals := lat1.finals ++ [(cur_state, 0, 0)] }
          else lat1
        GRLPLoop store costOffsets beam useFinal finalCosts numFrames fuel
          (qrest ++ r.2.1) r.1 lat2
    else none

/-- `DecCore::GetRawLatticePruned`: forbidden-call check, final-cost
selection, the up-front empty-frame scan returning `false` on an empty
output, then BFS from the initial token (the last token of frame 0). -/
def GetRawLatticePruned (finalOf : Nat → CostF) (s : DecState)
    (useFinal : Bool) (beam : ℚ) (fuel : Nat) : Option (Bool × RawLat) :=
  if s.decodingFinalized ∧ useFinal = false then none
  else
    let finalCosts : List (TokId × ℚ) :=
      if s.decodingFinalized then s.finalCosts
      else if useFinal then (ComputeFinalCosts finalOf s.store s.tokenSet).1
      else []
    if s.tokenNet.length ≤ 1 then none
    else
      let numFrames := s.tokenNet.length - 1
      if s.tokenNet.any (fun fr => fr.isEmpty) then
        some (false, ⟨0, none, [], []⟩)
      else
        match (s.tokenNet.getD 0 []).getLast? with
        | none => some (false, ⟨0, none, [], []⟩)
        | some initTok =>
          let lat0 : RawLat := ⟨1, some 0, [], []⟩
          match GRLPLoop s.store s.costOffsets beam useFinal finalCosts
              numFrames fuel [(initTok, 0)] [(initTok, 0)] lat0 with
          | none => none
          | some lat => some (decide (lat.numStates ≠ 0), lat)

/-- A graph oracle with no final states. -/
def noFinalOracle : Nat → CostF := fun _ => none

/-- A graph oracle whose every state has final cost `1`. -/
def oneFinalOracle : Nat → CostF := fun _ => some 1

/-- A graph oracle in which only state `5` is final, with final cost 0. -/
def fiveFinalOracle : Nat → CostF := fun st => if st = 5 then some 0 else none

/-- A one-token decoder state: token `0` (cost `0`, empty links) lives on
frame `0` under search state `5`. -/
def oneTokState : DecState :=
  { tokenNet := [[0]],
    store := fun _ => ⟨0, some 0, [], none⟩,
    tokenSet := [(5, 0)],
    queue := [],
    costOffsets := [],
    numToks := 1,
    nextId := 1,
    decodingFinalized := false,
    finalCosts := [],
    finalRelativeCost := none,
    finalBestCost := none }

/-- A collapsed decoder state: frame `0` holds token `0`, frame `1` is
empty (no tokens survived the emitting step). -/
def collapseState : DecState :=
  { tokenNet := [[0], []],
    store := fun _ => ⟨0, some 0, [], none⟩,
    tokenSet := [],
    queue := [],
    costOffsets := [0],
    numToks := 1,
    nextId := 1,
    decodingFinalized := false,
    finalCosts := [],
    finalRelativeCost := none,
    finalBestCost := none }

/-- A three-token store exercising the pruning sweep: token `0` (frame t)
has an epsilon link of graph cost `5` to token `1` (same frame), token `1`
has an emitting link of graph cost `101/20` to token `2` (frame t+1). -/
def pflStore : Store := fun i =>
  if i = 0 then ⟨0, some 10, [⟨1, 0, 0, 5, 0⟩], none⟩
  else if i = 1 then ⟨0, some 5, [⟨2, 1, 0, 101 / 20, 0⟩], none⟩
  else ⟨0, some 0, [], none⟩

/-- The store of `pflStore` after one pruning sweep: both links kept,
token 1's `extra_cost` recomputed to `101/20`. -/
def pflAfter1 : Store :=
  updateStore (updateStore pflStore 0 ⟨0, some 10, [⟨1, 0, 0, 5, 0⟩], none⟩)
    1 ⟨0, some (101 / 20), [⟨2, 1, 0, 101 / 20, 0⟩], none⟩

/-- The store of `pflStore` after two exact (`delta = 0`) sweeps: token
0's link is now over the beam and excised. -/
def pflAfter2 : Store :=
  updateStore (updateStore pflAfter1 0 ⟨0, none, [], none⟩)
    1 ⟨0, some (101 / 20), [⟨2, 1, 0, 101 / 20, 0⟩], none⟩

/-- The store of `pflStore` after the third, stable exact sweep. -/
def pflAfter3 : Store :=
  updateStore (updateStore pflAfter2 0 ⟨0, none, [], none⟩)
    1 ⟨0, some (101 / 20), [⟨2, 1, 0, 101 / 20, 0⟩], none⟩

/-- A store for the traceback: token `1` owns an emitting link (ilabel 3,
olabel 4, graph cost 2, acoustic cost 7) to token `0`, an epsilon link
(olabel 6, graph cost 3, acoustic cost 0) to token `2`, and every other
token points back to token `1`. -/
def tbStore : Store := fun i =>
  if i = 1 then ⟨0, some 0, [⟨0, 3, 4, 2, 7⟩, ⟨2, 0, 6, 3, 0⟩], none⟩
  else ⟨0, some 0, [], some 1⟩

/-- Epsilon arcs used by the non-emitting witness: state `5` has one
epsilon arc of weight `1` to state `7` and one of weight `30` to state
`8`; other states have no arcs. -/
def neArcsOf : Nat → List WfstArc := fun st =>
  if st = 5 then [⟨0, 11, 1, 7⟩, ⟨0, 12, 30, 8⟩] else []

/-- The arc test of the non-emitting expander, as the claim states it: an
epsilon arc whose `total = tok.total_cost + arc.weight` is strictly below
the cutoff. -/
def qualifiesB (tc0 cutoff : ℚ) (a : WfstArc) : Bool :=
  a.ilabel == 0 && decide (tc0 + a.weight < cutoff)

/-- The link-deletion step of the non-emitting expander
(`DeleteLinksFromToken(tok); tok->links = NULL`). -/
def delinkTok (s : DecState) (tid : TokId) : DecState :=
  { s with store := updateStore s.store tid { s.store tid with links := [] } }

/-- C6: `PruneTokenList(t)` removes and destroys exactly the tokens of
the frame whose `extra_cost` is infinite, decrementing `num_toks` once per
destroyed token; afterwards no token of the frame has infinite
`extra_cost`, and all other tokens are untouched and remain on the
frame's list in order. -/
theorem PruneTokenList_spec (store : Store) (toks : List TokId) (n : ℤ) :
    (PruneTokenList store toks n).1
      = toks.filter (fun t => (store t).extra_cost.isSome) ∧
    (PruneTokenList store toks n).2
      = n - toks.countP (fun t => (store t).extra_cost.isNone) ∧
    ∀ t ∈ (PruneTokenList store toks n).1, (store t).extra_cost ≠ none := by
  induction toks generalizing n with
  | nil => simp [PruneTokenList]
  | cons t rest ih =>
    by_cases h : (store t).extra_cost = none
    · obtain ⟨ea, eb, ec⟩ := ih (n - 1)
      refine ⟨?_, ?_, ?_⟩
      · simpa [PruneTokenList, h] using ea
      · rw [PruneTokenList, if_pos h, eb, List.countP_cons]
        simp [h]
        ring
      · intro x hx
        rw [PruneTokenList, if_pos h] at hx
        exact ec x hx
    · obtain ⟨ea, eb, ec⟩ := ih n
      refine ⟨?_, ?_, ?_⟩
      · have hs : (store t).extra_cost.isSome = true :=
          Option.isSome_iff_ne_none.mpr h
        rw [PruneTokenList, if_neg h, List.filter_cons, hs]
        simpa using ea
      · rw [PruneTokenList, if_neg h]
        simp only [List.countP_cons]
        have h2 : (store t).extra_cost.isNone = false := by
          cases hx : (store t).extra_cost with
          | none => exact absurd hx h
          | some v => rfl
        simp [h2, eb]
      · intro x hx
        rw [PruneTokenList, if_neg h] at hx
        rcases List.mem_cons.mp hx with rfl | hx2
        · exact h
        · exact ec x hx2

/-- C3: the `FindOrAddToken` contract.  An absent state allocates a token
with `extra_cost = 0` and no links, prepends it to the frame's list,
inserts it into the Active Index, increments `num_toks` and reports
`changed`; a present state with a strictly better incoming cost updates
only `total_cost` and `backpointer` (links and `extra_cost` intact,
no structural change) and reports `changed`; otherwise the state is
returned unmodified with `changed = false`. -/
theorem FindOrAddToken_contract (s : DecState) (state t : Nat) (tc : ℚ)
    (bp : Option TokId) :
    (lookupA s.tokenSet state = none →
      (FindOrAddToken s state t tc bp).2.1 = s.nextId ∧
      (FindOrAddToken s state t tc bp).2.2 = true ∧
      (FindOrAddToken s state t tc bp).1.store s.nextId
        = ⟨tc, some 0, [], bp⟩ ∧
      (FindOrAddToken s state t tc bp).1.tokenNet
        = s.tokenNet.set t (s.nextId :: s.tokenNet.getD t []) ∧
      (FindOrAddToken s state t tc bp).1.tokenSet
        = (state, s.nextId) :: s.tokenSet ∧
      (FindOrAddToken s state t tc bp).1.numToks = s.numToks + 1) ∧
    (∀ tid, lookupA s.tokenSet state = some tid →
      tc < (s.store tid).total_cost →
      (FindOrAddToken s state t tc bp).2.1 = tid ∧
      (FindOrAddToken s state t tc bp).2.2 = true ∧
      (FindOrAddToken s state t tc bp).1.store tid
        = { s.store tid with total_cost := tc, backpointer := bp } ∧
      (∀ x, x ≠ tid → (FindOrAddToken s state t tc bp).1.store x = s.store x) ∧
      (FindOrAddToken s state t tc bp).1.tokenNet = s.tokenNet ∧
      (FindOrAddToken s state t tc bp).1.tokenSet = s.tokenSet ∧
      (FindOrAddToken s state t tc bp).1.numToks = s.numToks) ∧
    (∀ tid, lookupA s.tokenSet state = some tid →
      ¬ tc < (s.store tid).total_cost →
      FindOrAddToken s state t tc bp = (s, tid, false)) := by
  refine ⟨?_, ?_, ?_⟩
  · intro h
    simp [FindOrAddToken, h, updateStore]
  · intro tid h hlt
    have hgt : (s.store tid).total_cost > tc := hlt
    refine ⟨?_, ?_, ?_, ?_, ?_, ?_, ?_⟩ <;>
      simp [FindOrAddToken, h, if_pos hgt, updateStore]
    intro x hx
    simp [hx]
  · intro tid h hnlt
    simp [FindOrAddToken, h, if_neg hnlt]

/-- Witness for C3: the three cases of the contract at concrete inputs
(state 9 is absent, state 5 is present with token 0 of cost 0). -/
theorem FindOrAddToken_contract_witness :
    ((FindOrAddToken oneTokState 9 0 2 none).2.2 = true ∧
     (FindOrAddToken oneTokState 9 0 2 none).1.numToks
       = oneTokState.numToks + 1) ∧
    ((FindOrAddToken oneTokState 5 0 (-1) none).2.2 = true ∧
     (FindOrAddToken oneTokState 5 0 (-1) none).1.store 0
       = { oneTokState.store 0 with total_cost := -1, backpointer := none }) ∧
    FindOrAddToken oneTokState 5 0 7 none = (oneTokState, 0, false) := by
  have h1 := (FindOrAddToken_contract oneTokState 9 0 2 none).1 (by decide)
  have h2 := (FindOrAddToken_contract oneTokState 5 0 (-1) none).2.1 0
    (by decide) (by norm_num [oneTokState])
  have h3 := (FindOrAddToken_contract oneTokState 5 0 7 none).2.2 0
    (by decide) (by norm_num [oneTokState])
  exact ⟨⟨h1.2.1, h1.2.2.2.2.2⟩, ⟨h2.2.1, h2.2.2.1⟩, h3⟩

/-- Folding the running minimum from a finite seed stays finite. -/
theorem foldl_cMin_isSome (l : List ℚ) :
    ∀ b : ℚ, ∃ y, l.foldl (fun a v => cMin (some v) a) (some b) = some y := by
  induction l with
  | nil => intro b; exact ⟨b, rfl⟩
  | cons x xs ih =>
    intro b
    have hx : ∃ c, cMin (some x) (some b) = some c := by
      unfold cMin
      by_cases h : cLtB (some b) (some x) = true
      · exact ⟨b, by rw [if_pos h]⟩
      · exact ⟨x, by rw [if_neg h]⟩
    obtain ⟨c, hc⟩ := hx
    obtain ⟨y, hy⟩ := ih c
    exact ⟨y, by rw [List.foldl_cons, hc, hy]⟩

/-- The best weight of a non-empty snapshot is finite. -/
theorem bestWeightOf_isSome (costs : List ℚ) (h : costs ≠ []) :
    ∃ b, bestWeightOf costs = some b := by
  match costs, h with
  | x :: xs, _ =>
    have h0 : cMin (some x) none = some x := by
      unfold cMin cLtB
      rfl
    obtain ⟨y, hy⟩ := foldl_cMin_isSome xs x
    exact ⟨y, by rw [bestWeightOf, List.foldl_cons, h0, hy]⟩

/-- C4: `GetCutoff` on a non-empty snapshot.  When the token count is at
most `max_active` and `min_active` is 0 it returns `best + beam` with
`adaptive_beam = beam` (via either branch of the source); when the count
exceeds `max_active` and the `max_active`-th smallest cost (`max_cut`,
position `max_active` of the sorted array, which is what `nth_element`
places there) is below `best + beam`, it returns `max_cut` with
`adaptive_beam = max_cut - best + beam_delta`.  The bound
`costs.length ≤ int32max` reflects that the count is held in an `int32`
(`num_toks_`), and `0 < beam` is guaranteed by `DecCoreConfig::Check`. -/
theorem GetCutoff_spec (cfg : CutoffConfig) (costs : List ℚ)
    (hne : costs ≠ []) (hbeam : 0 < cfg.beam) :
    (cfg.min_active = 0 → costs.length ≤ cfg.max_active →
      GetCutoff cfg costs
        = (cAdd (bestWeightOf costs) (some cfg.beam), cfg.beam)) ∧
    (∀ b, bestWeightOf costs = some b →
      costs.length ≤ int32max → cfg.max_active < costs.length →
      (sortCosts costs).getD cfg.max_active 0 < b + cfg.beam →
      GetCutoff cfg costs
        = (some ((sortCosts costs).getD cfg.max_active 0),
           (sortCosts costs).getD cfg.max_active 0 - b + cfg.beam_delta)) := by
  constructor
  · intro hmin hcnt
    obtain ⟨b, hb⟩ := bestWeightOf_isSome costs hne
    by_cases hfirst : cfg.max_active = int32max ∧ cfg.min_active = 0
    · simp only [GetCutoff, if_pos hfirst]
    · have h1 : ¬ cfg.max_active < costs.length := not_lt.mpr hcnt
      have h2 : cfg.min_active < costs.length := by
        rw [hmin]
        exact List.length_pos.mpr hne
      have hA : cLtB (none : CostF)
          (cAdd (bestWeightOf costs) (some cfg.beam)) = false := rfl
      have h3 : cLtB (cAdd (bestWeightOf costs) (some cfg.beam))
          (bestWeightOf costs) = false := by
        rw [hb]
        show cLtB (some (b + cfg.beam)) (some b) = false
        unfold cLtB
        simp only [decide_eq_false_iff_not, not_lt]
        linarith
      simp only [GetCutoff, if_neg hfirst, if_neg h1, hA,
        Bool.false_eq_true, if_false, if_pos h2, if_pos hmin, h3]
  · intro b hb hint hcnt hcut
    have hfirst : ¬ (cfg.max_active = int32max ∧ cfg.min_active = 0) := by
      rintro ⟨hmax, -⟩
      have : costs.length ≤ cfg.max_active := by rw [hmax]; exact hint
      exact absurd hcnt (not_lt.mpr this)
    have h3 : cLtB (some ((sortCosts costs).getD cfg.max_active 0))
        (cAdd (some b) (some cfg.beam)) = true := by
      show cLtB (some ((sortCosts costs).getD cfg.max_active 0))
        (some (b + cfg.beam)) = true
      unfold cLtB
      simpa using hcut
    simp only [GetCutoff, if_neg hfirst, if_pos hcnt, hb, h3, if_true]
    simp

/-- Witness for C4: both branches at concrete snapshots with
`beam = 16`, `beam_delta = 1/2`. -/
theorem GetCutoff_spec_witness :
    GetCutoff ⟨16, 5, 0, 1 / 2⟩ [3, 1, 2]
      = (cAdd (bestWeightOf [3, 1, 2]) (some 16), 16) ∧
    GetCutoff ⟨16, 2, 0, 1 / 2⟩ [3, 1, 2]
      = (some ((sortCosts [3, 1, 2]).getD 2 0),
         (sortCosts [3, 1, 2]).getD 2 0 - 1 + (1 / 2 : ℚ)) := by
  constructor
  · exact (GetCutoff_spec ⟨16, 5, 0, 1 / 2⟩ [3, 1, 2] (by simp)
      (by norm_num)).1 rfl (by norm_num)
  · exact (GetCutoff_spec ⟨16, 2, 0, 1 / 2⟩ [3, 1, 2] (by simp)
      (by norm_num)).2 1 (by decide) (by norm_num [int32max]) (by simp)
      (by norm_num [sortCosts, insertSorted])

/-- C8: `TraceBackBestPath` at a token with a backpointer whose link is
found emits that link as a lattice arc; on an emitting link the acoustic
cost has `cost_offsets[frame]` subtracted and the returned frame index
drops by exactly one, on an epsilon link the stored costs are emitted
unchanged and the frame index stays the same. -/
theorem TraceBackBestPath_spec (store : Store) (costOffsets : List ℚ)
    (tid : TokId) (frame : ℤ) (bp : TokId) (l : ForwardLink)
    (hbp : (store tid).backpointer = some bp)
    (hl : (store bp).links.find? (fun k => k.dst_tok == tid) = some l) :
    (l.ilabel ≠ 0 → 0 ≤ frame → frame.toNat < costOffsets.length →
      TraceBackBestPath store costOffsets tid frame
        = some ((some bp, frame - 1),
            ⟨l.ilabel, l.olabel, l.graph_cost,
             l.acoustic_cost - costOffsets.getD frame.toNat 0⟩)) ∧
    (l.ilabel = 0 →
      TraceBackBestPath store costOffsets tid frame
        = some ((some bp, frame),
            ⟨l.ilabel, l.olabel, l.graph_cost, l.acoustic_cost⟩)) := by
  constructor
  · intro hil hf1 hf2
    simp [TraceBackBestPath, hbp, hl, hil, hf1, hf2]
  · intro hil
    simp [TraceBackBestPath, hbp, hl, hil]

/-- Witness for C8: tracing back over the emitting link of `tbStore`
(frame 1 drops to 0, acoustic cost 7 minus offset 1/3) and over its
epsilon link (frame unchanged, costs unchanged). -/
theorem TraceBackBestPath_spec_witness :
    TraceBackBestPath tbStore [1 / 2, 1 / 3] 0 1
      = some ((some 1, 0), ⟨3, 4, 2, 7 - (1 / 3 : ℚ)⟩) ∧
    TraceBackBestPath tbStore [1 / 2, 1 / 3] 2 1
      = some ((some 1, 1), ⟨0, 6, 3, 0⟩) := by
  constructor
  · exact (TraceBackBestPath_spec tbStore [1 / 2, 1 / 3] 0 1 1 ⟨0, 3, 4, 2, 7⟩
      (by decide) (by decide)).1 (by decide) (by decide) (by decide)
  · exact (TraceBackBestPath_spec tbStore [1 / 2, 1 / 3] 2 1 1 ⟨2, 0, 6, 3, 0⟩
      (by decide) (by decide)).2 (by decide)

/-- C10: at a token with a null backpointer (the start token),
`TraceBackBestPath` emits one extra zero-cost epsilon arc
(`ilabel = 0`, `olabel = 0`, `LatticeWeight::One`) and returns a `Done`
iterator; conversely the returned iterator is `Done` exactly when the
token's backpointer was null, so a traceback ends only at the start
token. -/
theorem TraceBackBestPath_start_token (store : Store) (costOffsets : List ℚ)
    (tid : TokId) (frame : ℤ) :
    ((store tid).backpointer = none →
      TraceBackBestPath store costOffsets tid frame
        = some ((none, frame), ⟨0, 0, 0, 0⟩)) ∧
    (∀ r, TraceBackBestPath store costOffsets tid frame = some r →
      (r.1.1 = none ↔ (store tid).backpointer = none)) := by
  constructor
  · intro h
    simp [TraceBackBestPath, h]
  · intro r hr
    unfold TraceBackBestPath at hr
    split at hr
    next hbnone =>
      cases hr
      simp [hbnone]
    next bp hbsome =>
      split at hr
      next => cases hr
      next l hfind =>
        split at hr
        next hil =>
          split at hr
          next hfr =>
            cases hr
            simp [hbsome]
          next => cases hr
        next hil =>
          cases hr
          simp [hbsome]

/-- Witness for C10: token 1 of `tbStore` has no backpointer; tracing
back from it yields the zero-cost epsilon arc and a `Done` iterator. -/
theorem TraceBackBestPath_start_token_witness :
    TraceBackBestPath tbStore [1 / 2] 1 0 = some ((none, 0), ⟨0, 0, 0, 0⟩) := by
  exact (TraceBackBestPath_start_token tbStore [1 / 2] 1 0).1 (by decide)

/-- Reflexivity of the cost order. -/
theorem cLeB_refl (a : CostF) : cLeB a a = true := by
  cases a with
  | none => rfl
  | some x => simp [cLeB]

/-- Transitivity of the cost order. -/
theorem cLeB_trans {a b c : CostF} (h1 : cLeB a b = true)
    (h2 : cLeB b c = true) : cLeB a c = true := by
  cases a with
  | none =>
    cases b with
    | none => exact h2
    | some y => exact absurd h1 (by simp [cLeB])
  | some x =>
    cases c with
    | none => rfl
    | some z =>
      cases b with
      | none => exact absurd h2 (by simp [cLeB])
      | some y =>
        simp only [cLeB, decide_eq_true_eq] at h1 h2 ⊢
        exact le_trans h1 h2

/-- The running minimum is below its first argument. -/
theorem cLeB_cMin_left (a b : CostF) : cLeB (cMin a b) a = true := by
  unfold cMin
  by_cases h : cLtB b a = true
  · rw [if_pos h]
    cases a with
    | none => cases b <;> rfl
    | some x =>
      cases b with
      | none => exact absurd h (by simp [cLtB])
      | some y =>
        simp only [cLtB, decide_eq_true_eq] at h
        simp only [cLeB, decide_eq_true_eq]
        exact le_of_lt h
  · rw [if_neg h]
    exact cLeB_refl a

/-- The running minimum is below its second argument. -/
theorem cLeB_cMin_right (a b : CostF) : cLeB (cMin a b) b = true := by
  unfold cMin
  by_cases h : cLtB b a = true
  · rw [if_pos h]
    exact cLeB_refl b
  · rw [if_neg h]
    cases b with
    | none => cases a <;> rfl
    | some y =>
      cases a with
      | none => exact absurd rfl h
      | some x =>
        simp only [cLtB, decide_eq_true_eq] at h
        simp only [cLeB, decide_eq_true_eq]
        exact not_lt.mp fun hc => h hc

/-- The running minimum takes one of its two arguments. -/
theorem cMin_eq_or (a b : CostF) : cMin a b = a ∨ cMin a b = b := by
  unfold cMin
  by_cases h : cLtB b a = true
  · right; rw [if_pos h]
  · left; rw [if_neg h]

/-- A minimum with a finite first argument is finite. -/
theorem cMin_some_ne_none (x : ℚ) (b : CostF) : cMin (some x) b ≠ none := by
  rcases cMin_eq_or (some x) b with h | h
  · rw [h]; exact Option.some_ne_none x
  · rw [h]
    intro hb
    subst hb
    exact absurd h (by simp [cMin, cLtB])

/-- `cAdd` of a finite and a value is infinite exactly when the second
argument is. -/
theorem cAdd_some_eq_none_iff (x : ℚ) (b : CostF) :
    cAdd (some x) b = none ↔ b = none := by
  cases b <;> simp [cAdd]

/-- `cMin` is infinite exactly when both arguments are. -/
theorem cMin_eq_none_iff (a b : CostF) :
    cMin a b = none ↔ a = none ∧ b = none := by
  cases a with
  | none => cases b <;> simp [cMin, cLtB]
  | some x =>
    constructor
    · intro h
      exact absurd h (cMin_some_ne_none x b)
    · rintro ⟨h, -⟩
      cases h

/-- The `best_cost` accumulator of the `ComputeFinalCosts` loop is a lower
bound for the incoming accumulator and for every token cost scanned. -/
theorem CFCloop_best_le (finalOf : Nat → CostF) (store : Store)
    (l : List (Nat × TokId)) :
    ∀ fc best bwf,
      cLeB (ComputeFinalCostsLoop finalOf store l fc best bwf).2.1 best = true ∧
      ∀ p ∈ l,
        cLeB (ComputeFinalCostsLoop finalOf store l fc best bwf).2.1
          (some (store p.2).total_cost) = true := by
  induction l with
  | nil =>
    intro fc best bwf
    exact ⟨cLeB_refl best, by simp⟩
  | cons q rest ih =>
    intro fc best bwf
    rcases q with ⟨qs, qt⟩
    obtain ⟨h1, h2⟩ := ih
      (match finalOf qs with
        | some c => fc ++ [(qt, c)]
        | none => fc)
      (cMin (some (store qt).total_cost) best)
      (cMin (cAdd (some (store qt).total_cost) (finalOf qs)) bwf)
    constructor
    · exact cLeB_trans h1 (cLeB_cMin_right _ best)
    · intro p hp
      rcases List.mem_cons.mp hp with rfl | hp2
      · exact cLeB_trans h1 (cLeB_cMin_left _ best)
      · exact h2 p hp2

/-- The `best_cost_with_final` accumulator of the loop is a lower bound
for the incoming accumulator and for every `cost + final_cost` scanned. -/
theorem CFCloop_bwf_le (finalOf : Nat → CostF) (store : Store)
    (l : List (Nat × TokId)) :
    ∀ fc best bwf,
      cLeB (ComputeFinalCostsLoop finalOf store l fc best bwf).2.2 bwf = true ∧
      ∀ p ∈ l,
        cLeB (ComputeFinalCostsLoop finalOf store l fc best bwf).2.2
          (cAdd (some (store p.2).total_cost) (finalOf p.1)) = true := by
  induction l with
  | nil =>
    intro fc best bwf
    exact ⟨cLeB_refl bwf, by simp⟩
  | cons q rest ih =>
    intro fc best bwf
    rcases q with ⟨qs, qt⟩
    obtain ⟨h1, h2⟩ := ih
      (match finalOf qs with
        | some c => fc ++ [(qt, c)]
        | none => fc)
      (cMin (some (store qt).total_cost) best)
      (cMin (cAdd (some (store qt).total_cost) (finalOf qs)) bwf)
    constructor
    · exact cLeB_trans h1 (cLeB_cMin_right _ bwf)
    · intro p hp
      rcases List.mem_cons.mp hp with rfl | hp2
      · exact cLeB_trans h1 (cLeB_cMin_left _ bwf)
      · exact h2 p hp2

/-- The final `best_cost` is the incoming accumulator or one of the
scanned token costs. -/
theorem CFCloop_best_attain (finalOf : Nat → CostF) (store : Store)
    (l : List (Nat × TokId)) :
    ∀ fc best bwf,
      (ComputeFinalCostsLoop finalOf store l fc best bwf).2.1 = best ∨
      ∃ p ∈ l, (ComputeFinalCostsLoop finalOf store l fc best bwf).2.1
        = some (store p.2).total_cost := by
  induction l with
  | nil => intro fc best bwf; exact Or.inl rfl
  | cons q rest ih =>
    intro fc best bwf
    rcases q with ⟨qs, qt⟩
    rcases ih
        (match finalOf qs with
          | some c => fc ++ [(qt, c)]
          | none => fc)
        (cMin (some (store qt).total_cost) best)
        (cMin (cAdd (some (store qt).total_cost) (finalOf qs)) bwf) with
      h | ⟨p, hp, h⟩
    · rcases cMin_eq_or (some (store qt).total_cost) best with hm | hm
      · right
        exact ⟨(qs, qt), List.mem_cons_self _ _, h.trans hm⟩
      · left
        exact h.trans hm
    · right
      exact ⟨p, List.mem_cons_of_mem _ hp, h⟩

/-- The final `best_cost_with_final` is the incoming accumulator or one
of the scanned `cost + final_cost` values. -/
theorem CFCloop_bwf_attain (finalOf : Nat → CostF) (store : Store)
    (l : List (Nat × TokId)) :
    ∀ fc best bwf,
      (ComputeFinalCostsLoop finalOf store l fc best bwf).2.2 = bwf ∨
      ∃ p ∈ l, (ComputeFinalCostsLoop finalOf store l fc best bwf).2.2
        = cAdd (some (store p.2).total_cost) (finalOf p.1) := by
  induction l with
  | nil => intro fc best bwf; exact Or.inl rfl
  | cons q rest ih =>
    intro fc best bwf
    rcases q with ⟨qs, qt⟩
    rcases ih
        (match finalOf qs with
          | some c => fc ++ [(qt, c)]
          | none => fc)
        (cMin (some (store qt).total_cost) best)
        (cMin (cAdd (some (store qt).total_cost) (finalOf qs)) bwf) with
      h | ⟨p, hp, h⟩
    · rcases cMin_eq_or (cAdd (some (store qt).total_cost) (finalOf qs)) bwf with
        hm | hm
      · right
        exact ⟨(qs, qt), List.mem_cons_self _ _, h.trans hm⟩
      · left
        exact h.trans hm
    · right
      exact ⟨p, List.mem_cons_of_mem _ hp, h⟩

/-- The final `best_cost_with_final` is infinite exactly when the
accumulator is infinite and no scanned state has a finite final cost. -/
theorem CFCloop_bwf_none_iff (finalOf : Nat → CostF) (store : Store)
    (l : List (Nat × TokId)) :
    ∀ fc best bwf,
      ((ComputeFinalCostsLoop finalOf store l fc best bwf).2.2 = none ↔
        bwf = none ∧ ∀ p ∈ l, finalOf p.1 = none) := by
  induction l with
  | nil => intro fc best bwf; simp [ComputeFinalCostsLoop]
  | cons q rest ih =>
    intro fc best bwf
    rcases q with ⟨qs, qt⟩
    rw [ComputeFinalCostsLoop]
    rw [ih]
    rw [cMin_eq_none_iff, cAdd_some_eq_none_iff]
    constructor
    · rintro ⟨⟨hq, hb⟩, hrest⟩
      refine ⟨hb, ?_⟩
      intro p hp
      rcases List.mem_cons.mp hp with rfl | hp2
      · exact hq
      · exact hrest p hp2
    · rintro ⟨hb, hall⟩
      exact ⟨⟨hall (qs, qt) (List.mem_cons_self _ _), hb⟩,
        fun p hp => hall p (List.mem_cons_of_mem _ hp)⟩

/-- The final `best_cost` is infinite exactly when the accumulator is
infinite and no token was scanned. -/
theorem CFCloop_best_none_iff (finalOf : Nat → CostF) (store : Store)
    (l : List (Nat × TokId)) :
    ∀ fc best bwf,
      ((ComputeFinalCostsLoop finalOf store l fc best bwf).2.1 = none ↔
        best = none ∧ l = []) := by
  induction l with
  | nil => intro fc best bwf; simp [ComputeFinalCostsLoop]
  | cons q rest ih =>
    intro fc best bwf
    rcases q with ⟨qs, qt⟩
    rw [ComputeFinalCostsLoop]
    rw [ih]
    simp only [List.cons_ne_nil, and_false, iff_false]
    rintro ⟨h, -⟩
    exact cMin_some_ne_none _ _ h

/-- The cost order between finite values is the rational order. -/
theorem cLeB_some_some_iff {a b : ℚ} : cLeB (some a) (some b) = true ↔ a ≤ b := by
  simp [cLeB]

/-- C1 (amended): for a not-yet-finalized decoder, `FinalRelativeCost` is
`+infinity` iff no surviving token's state has a finite final cost (in
particular when no tokens survived at all); whenever all final costs are
non-negative, a finite result is non-negative, and the result is `0` when
some token achieving the best `total_cost` has final cost `0`. -/
theorem FinalRelativeCost_spec (finalOf : Nat → CostF) (s : DecState)
    (hfin : s.decodingFinalized = false) :
    (FinalRelativeCost finalOf s = none ↔
      ∀ p ∈ s.tokenSet, finalOf p.1 = none) ∧
    ((∀ p ∈ s.tokenSet, ∀ c, finalOf p.1 = some c → 0 ≤ c) →
      (∀ r, FinalRelativeCost finalOf s = some r → 0 ≤ r) ∧
      (∀ p ∈ s.tokenSet, finalOf p.1 = some 0 →
        (∀ q ∈ s.tokenSet,
          (s.store p.2).total_cost ≤ (s.store q.2).total_cost) →
        FinalRelativeCost finalOf s = some 0)) := by
  have hF : FinalRelativeCost finalOf s
      = (ComputeFinalCosts finalOf s.store s.tokenSet).2.1 := by
    rw [FinalRelativeCost, if_pos hfin]
  have hC : (ComputeFinalCosts finalOf s.store s.tokenSet).2.1
      = (if (ComputeFinalCostsLoop finalOf s.store s.tokenSet [] none none).2.1
            = none ∧
           (ComputeFinalCostsLoop finalOf s.store s.tokenSet [] none none).2.2
            = none
         then none
         else cSub
           (ComputeFinalCostsLoop finalOf s.store s.tokenSet [] none none).2.2
           (ComputeFinalCostsLoop finalOf s.store s.tokenSet [] none none).2.1) :=
    rfl
  constructor
  · -- infinity characterization
    rw [hF, hC]
    by_cases hbn :
        (ComputeFinalCostsLoop finalOf s.store s.tokenSet [] none none).2.1 = none
    · have hL : s.tokenSet = [] :=
        ((CFCloop_best_none_iff finalOf s.store s.tokenSet [] none none).mp hbn).2
      have hwn :
          (ComputeFinalCostsLoop finalOf s.store s.tokenSet [] none none).2.2
            = none := by
        rw [CFCloop_bwf_none_iff]
        exact ⟨rfl, by rw [hL]; simp⟩
      rw [if_pos ⟨hbn, hwn⟩]
      simp [hL]
    · rw [if_neg (fun hand => hbn hand.1)]
      cases hb :
          (ComputeFinalCostsLoop finalOf s.store s.tokenSet [] none none).2.1 with
      | none => exact absurd hb hbn
      | some b =>
        cases hw :
            (ComputeFinalCostsLoop finalOf s.store s.tokenSet [] none none).2.2 with
        | none =>
          have hall := (CFCloop_bwf_none_iff finalOf s.store s.tokenSet
            [] none none).mp hw
          simp only [cSub]
          exact ⟨fun _ => hall.2, fun _ => by simp⟩
        | some x =>
          have hnall : ¬ ∀ p ∈ s.tokenSet, finalOf p.1 = none := by
            intro hall
            have : (ComputeFinalCostsLoop finalOf s.store s.tokenSet
                [] none none).2.2 = none := by
              rw [CFCloop_bwf_none_iff]
              exact ⟨rfl, hall⟩
            rw [this] at hw
            cases hw
          simp only [cSub]
          constructor
          · intro h
            cases h
          · intro hall
            exact absurd hall hnall
  · intro hnn
    have key : ∀ r, FinalRelativeCost finalOf s = some r →
        ∃ b x, (ComputeFinalCostsLoop finalOf s.store s.tokenSet
            [] none none).2.1 = some b ∧
          (ComputeFinalCostsLoop finalOf s.store s.tokenSet
            [] none none).2.2 = some x ∧
          r = x - b ∧ b ≤ x := by
      intro r hr
      rw [hF, hC] at hr
      by_cases hand :
          (ComputeFinalCostsLoop finalOf s.store s.tokenSet [] none none).2.1
            = none ∧
          (ComputeFinalCostsLoop finalOf s.store s.tokenSet [] none none).2.2
            = none
      · rw [if_pos hand] at hr
        cases hr
      · rw [if_neg hand] at hr
        cases hb :
            (ComputeFinalCostsLoop finalOf s.store s.tokenSet
              [] none none).2.1 with
        | none =>
          have hL : s.tokenSet = [] :=
            ((CFCloop_best_none_iff finalOf s.store s.tokenSet
              [] none none).mp hb).2
          have hwn :
              (ComputeFinalCostsLoop finalOf s.store s.tokenSet
                [] none none).2.2 = none := by
            rw [CFCloop_bwf_none_iff]
            exact ⟨rfl, by rw [hL]; simp⟩
          exact absurd ⟨hb, hwn⟩ hand
        | some b =>
          cases hw :
              (ComputeFinalCostsLoop finalOf s.store s.tokenSet
                [] none none).2.2 with
          | none =>
            rw [hb, hw] at hr
            cases hr
          | some x =>
            rw [hb, hw] at hr
            simp only [cSub] at hr
            cases hr
            refine ⟨b, x, rfl, rfl, rfl, ?_⟩
            rcases CFCloop_bwf_attain finalOf s.store s.tokenSet
                [] none none with hat | ⟨p, hp, hat⟩
            · rw [hw] at hat
              cases hat
            · rw [hw] at hat
              cases hfc : finalOf p.1 with
              | none => rw [hfc] at hat; simp [cAdd] at hat
              | some c =>
                rw [hfc] at hat
                simp only [cAdd] at hat
                have hc0 : 0 ≤ c := hnn p hp c hfc
                have hble := (CFCloop_best_le finalOf s.store s.tokenSet
                  [] none none).2 p hp
                rw [hb] at hble
                have hble2 : b ≤ (s.store p.2).total_cost :=
                  cLeB_some_some_iff.mp hble
                have hx : x = (s.store p.2).total_cost + c := by
                  injection hat.symm with h2
                  exact h2.symm
                rw [hx]
                linarith
    constructor
    · intro r hr
      obtain ⟨b, x, -, -, hrx, hbx⟩ := key r hr
      rw [hrx]
      linarith
    · intro p hp hfc0 hmin
      have hLne : s.tokenSet ≠ [] := fun hL => by
        rw [hL] at hp
        cases hp
      have hbn :
          (ComputeFinalCostsLoop finalOf s.store s.tokenSet [] none none).2.1
            ≠ none := by
        intro hb
        exact hLne ((CFCloop_best_none_iff finalOf s.store s.tokenSet
          [] none none).mp hb).2
      cases hb :
          (ComputeFinalCostsLoop finalOf s.store s.tokenSet [] none none).2.1 with
      | none => exact absurd hb hbn
      | some b =>
        have hwn :
            (ComputeFinalCostsLoop finalOf s.store s.tokenSet [] none none).2.2
              ≠ none := by
          intro hw
          have hall := (CFCloop_bwf_none_iff finalOf s.store s.tokenSet
            [] none none).mp hw
          rw [hall.2 p hp] at hfc0
          cases hfc0
        cases hw :
            (ComputeFinalCostsLoop finalOf s.store s.tokenSet
              [] none none).2.2 with
        | none => exact absurd hw hwn
        | some x =>
          -- b = total_cost of p, the minimal cost
          have hble := (CFCloop_best_le finalOf s.store s.tokenSet
            [] none none).2 p hp
          rw [hb] at hble
          have hb_le : b ≤ (s.store p.2).total_cost :=
            cLeB_some_some_iff.mp hble
          have hb_ge : (s.store p.2).total_cost ≤ b := by
            rcases CFCloop_best_attain finalOf s.store s.tokenSet
                [] none none with hat | ⟨q, hq, hat⟩
            · rw [hb] at hat
              cases hat
            · rw [hb] at hat
              injection hat with h2
              rw [h2]
              exact hmin q hq
          -- x = total_cost of p as well
          have hwle := (CFCloop_bwf_le finalOf s.store s.tokenSet
            [] none none).2 p hp
          rw [hw, hfc0] at hwle
          simp only [cAdd] at hwle
          have hx_le : x ≤ (s.store p.2).total_cost + 0 :=
            cLeB_some_some_iff.mp hwle
          have hx_ge : (s.store p.2).total_cost ≤ x := by
            rcases CFCloop_bwf_attain finalOf s.store s.tokenSet
                [] none none with hat | ⟨q, hq, hat⟩
            · rw [hw] at hat
              cases hat
            · rw [hw] at hat
              cases hfcq : finalOf q.1 with
              | none => rw [hfcq] at hat; simp [cAdd] at hat
              | some c =>
                rw [hfcq] at hat
                simp only [cAdd] at hat
                injection hat.symm with h2
                have hc0 : 0 ≤ c := hnn q hq c hfcq
                have := hmin q hq
                rw [← h2]
                linarith
          have hxb : x = b := by linarith
          rw [hF, hC, if_neg (fun hand => hbn hand.1), hb, hw]
          simp only [cSub]
          rw [hxb]
          simp

/-- C1 counterexample: with one surviving token in a non-final state the
relative cost is `+infinity` although a token survived (refuting the
claimed equivalence with no-survivors), and with one surviving token in a
state of final cost `1` the best global path ends in a final state yet the
relative cost is `1`, not `0`. -/
theorem FinalRelativeCost_cex :
    (FinalRelativeCost noFinalOracle oneTokState = none ∧
      oneTokState.tokenSet.length = 1) ∧
    FinalRelativeCost oneFinalOracle oneTokState = some 1 := by
  refine ⟨⟨rfl, rfl⟩, ?_⟩
  have h1 : FinalRelativeCost oneFinalOracle oneTokState
      = some ((0 : ℚ) + 1 - 0) := rfl
  rw [h1]
  norm_num

/-- Witness for C1: the state with one token in the zero-cost final state
`5` has relative cost `0`, and the infinity characterization holds for
it. -/
theorem FinalRelativeCost_spec_witness :
    (FinalRelativeCost fiveFinalOracle oneTokState = none ↔
      ∀ p ∈ oneTokState.tokenSet, fiveFinalOracle p.1 = none) ∧
    FinalRelativeCost fiveFinalOracle oneTokState = some 0 := by
  have h := FinalRelativeCost_spec fiveFinalOracle oneTokState rfl
  refine ⟨h.1, ?_⟩
  have hnn : ∀ p ∈ oneTokState.tokenSet, ∀ c,
      fiveFinalOracle p.1 = some c → 0 ≤ c := by
    intro p hp c hc
    simp only [oneTokState, List.mem_singleton] at hp
    subst hp
    simp [fiveFinalOracle] at hc
    subst hc
    exact le_refl 0
  exact (h.2 hnn).2 (5, 0) (by simp [oneTokState])
    (by simp [fiveFinalOracle])
    (by intro q hq; exact le_refl _)

/-- The change test with tolerance `0` fails exactly on equal extra
costs (a NaN difference of two infinities also counts as no change, as in
the source). -/
theorem cDistGtB_zero_eq_false_iff {a b : CostF} :
    cDistGtB a b 0 = false ↔ a = b := by
  cases a with
  | none =>
    cases b with
    | none => simp [cDistGtB]
    | some y => simp [cDistGtB]
  | some x =>
    cases b with
    | none => simp [cDistGtB]
    | some y =>
      simp only [cDistGtB, decide_eq_false_iff_not, not_lt, Option.some.injEq]
      constructor
      · intro h
        have := abs_nonpos_iff.mp h
        linarith [sub_eq_zero.mp this]
      · intro h
        rw [h]
        simp

/-- A sweep update preserves `total_cost` everywhere. -/
theorem updateStore_keep_tc (store : Store) (t : TokId)
    (lks : List ForwardLink) (ex : CostF) (x : TokId) :
    ((updateStore store t
      { store t with links := lks, extra_cost := ex }) x).total_cost
      = (store x).total_cost := by
  unfold updateStore
  by_cases h : x = t
  · rw [if_pos h, h]
  · rw [if_neg h]

/-- A sweep update preserves `backpointer` everywhere. -/
theorem updateStore_keep_bp (store : Store) (t : TokId)
    (lks : List ForwardLink) (ex : CostF) (x : TokId) :
    ((updateStore store t
      { store t with links := lks, extra_cost := ex }) x).backpointer
      = (store x).backpointer := by
  unfold updateStore
  by_cases h : x = t
  · rw [if_pos h, h]
  · rw [if_neg h]

/-- A sweep update writing back the old `extra_cost` preserves
`extra_cost` everywhere. -/
theorem updateStore_keep_extra (store : Store) (t : TokId)
    (lks : List ForwardLink) (x : TokId) :
    ((updateStore store t
      { store t with
        links := lks,
        extra_cost := (store t).extra_cost }) x).extra_cost
      = (store x).extra_cost := by
  unfold updateStore
  by_cases h : x = t
  · rw [if_pos h, h]
  · rw [if_neg h]

/-- Every link kept by the inner link loop passed the
`link_extra_cost ≤ lattice_beam` test against the store it was examined
in. -/
theorem PruneLinksOfToken_kept (beam : ℚ) (store : Store) (tid : TokId)
    (links : List ForwardLink) :
    ∀ acc, ∀ l ∈ (PruneLinksOfToken beam store tid acc links).1,
      cLtB (some beam) (LinkExtraCost store tid l) = false := by
  induction links with
  | nil =>
    intro acc l hl
    simp [PruneLinksOfToken] at hl
  | cons k ks ih =>
    intro acc l hl
    by_cases h : cLtB (some beam) (LinkExtraCost store tid k) = true
    · rw [PruneLinksOfToken] at hl
      simp only [if_pos h] at hl
      exact ih acc l hl
    · rw [PruneLinksOfToken] at hl
      simp only [if_neg h] at hl
      rcases List.mem_cons.mp hl with rfl | hl2
      · simpa using h
      · exact ih _ l hl2

/-- A sweep does not touch tokens outside its frame list. -/
theorem PruneForwardLinksPass_not_mem (beam delta : ℚ) (toks : List TokId) :
    ∀ store tid, tid ∉ toks →
      (PruneForwardLinksPass beam delta store toks).1 tid = store tid := by
  induction toks with
  | nil => intro store tid _; rfl
  | cons t rest ih =>
    intro store tid h
    have ht : tid ≠ t := fun he => h (he ▸ List.mem_cons_self t rest)
    have hr : tid ∉ rest := fun hm => h (List.mem_cons_of_mem _ hm)
    have step : (PruneForwardLinksPass beam delta store (t :: rest)).1
        = (PruneForwardLinksPass beam delta
            (updateStore store t
              { store t with
                links := (PruneLinksOfToken beam store t none (store t).links).1,
                extra_cost :=
                  (PruneLinksOfToken beam store t none (store t).links).2.1 })
            rest).1 := rfl
    rw [step, ih _ tid hr]
    unfold updateStore
    rw [if_neg ht]

/-- A sweep preserves every token's `total_cost` and `backpointer`. -/
theorem PruneForwardLinksPass_preserves (beam delta : ℚ) (toks : List TokId) :
    ∀ store x,
      ((PruneForwardLinksPass beam delta store toks).1 x).total_cost
        = (store x).total_cost ∧
      ((PruneForwardLinksPass beam delta store toks).1 x).backpointer
        = (store x).backpointer := by
  induction toks with
  | nil => intro store x; exact ⟨rfl, rfl⟩
  | cons t rest ih =>
    intro store x
    have step : (PruneForwardLinksPass beam delta store (t :: rest)).1
        = (PruneForwardLinksPass beam delta
            (updateStore store t
              { store t with
                links := (PruneLinksOfToken beam store t none (store t).links).1,
                extra_cost :=
                  (PruneLinksOfToken beam store t none (store t).links).2.1 })
            rest).1 := rfl
    obtain ⟨h1, h2⟩ := ih
      (updateStore store t
        { store t with
          links := (PruneLinksOfToken beam store t none (store t).links).1,
          extra_cost :=
            (PruneLinksOfToken beam store t none (store t).links).2.1 }) x
    rw [step]
    exact ⟨h1.trans (updateStore_keep_tc store t _ _ x),
           h2.trans (updateStore_keep_bp store t _ _ x)⟩

/-- A sweep with `delta = 0` that reports no change leaves every
`extra_cost` exactly as it was. -/
theorem PruneForwardLinksPass_unchanged_extra (beam : ℚ) (toks : List TokId) :
    ∀ store, (PruneForwardLinksPass beam 0 store toks).2.1 = false →
      ∀ x, ((PruneForwardLinksPass beam 0 store toks).1 x).extra_cost
        = (store x).extra_cost := by
  induction toks with
  | nil => intro store _ x; rfl
  | cons t rest ih =>
    intro store hch x
    have hflag : (PruneForwardLinksPass beam 0 store (t :: rest)).2.1
        = (cDistGtB (PruneLinksOfToken beam store t none (store t).links).2.1
            (store t).extra_cost 0
           ||
           (PruneForwardLinksPass beam 0
             (updateStore store t
               { store t with
                 links := (PruneLinksOfToken beam store t none (store t).links).1,
                 extra_cost :=
                   (PruneLinksOfToken beam store t none (store t).links).2.1 })
             rest).2.1) := rfl
    rw [hflag] at hch
    have hct : cDistGtB (PruneLinksOfToken beam store t none (store t).links).2.1
        (store t).extra_cost 0 = false := by
      cases hc : cDistGtB (PruneLinksOfToken beam store t none (store t).links).2.1
          (store t).extra_cost 0 with
      | false => rfl
      | true => rw [hc] at hch; simp at hch
    have hcr : (PruneForwardLinksPass beam 0
        (updateStore store t
          { store t with
            links := (PruneLinksOfToken beam store t none (store t).links).1,
            extra_cost :=
              (PruneLinksOfToken beam store t none (store t).links).2.1 })
        rest).2.1 = false := by
      rw [hct] at hch
      simpa using hch
    have hext : (PruneLinksOfToken beam store t none (store t).links).2.1
        = (store t).extra_cost := cDistGtB_zero_eq_false_iff.mp hct
    have step : (PruneForwardLinksPass beam 0 store (t :: rest)).1
        = (PruneForwardLinksPass beam 0
            (updateStore store t
              { store t with
                links := (PruneLinksOfToken beam store t none (store t).links).1,
                extra_cost :=
                  (PruneLinksOfToken beam store t none (store t).links).2.1 })
            rest).1 := rfl
    rw [step, ih _ hcr x, hext]
    exact updateStore_keep_extra store t _ x

/-- `LinkExtraCost` only reads total costs and extra costs; stores that
agree on those agree on it. -/
theorem LinkExtraCost_congr (s1 s2 : Store) (tid : TokId) (l : ForwardLink)
    (htc : ∀ x, (s1 x).total_cost = (s2 x).total_cost)
    (hex : ∀ x, (s1 x).extra_cost = (s2 x).extra_cost) :
    LinkExtraCost s1 tid l = LinkExtraCost s2 tid l := by
  unfold LinkExtraCost
  rw [htc tid, htc l.dst_tok, hex l.dst_tok]

/-- Evaluation rule for `cLtB` on finite costs. -/
theorem cLtB_ss (a b : ℚ) : cLtB (some a) (some b) = decide (a < b) := rfl

/-- Evaluation rule: a finite cost is below infinity. -/
theorem cLtB_sn (a : ℚ) : cLtB (some a) none = true := rfl

/-- Evaluation rule: infinity is below nothing. -/
theorem cLtB_ns (x : CostF) : cLtB none x = false := by cases x <;> rfl

/-- Evaluation rule for `cLeB` on finite costs. -/
theorem cLeB_ss (a b : ℚ) : cLeB (some a) (some b) = decide (a ≤ b) := rfl

/-- Evaluation rule: everything is at most infinity. -/
theorem cLeB_n (x : CostF) : cLeB x none = true := by cases x <;> rfl

/-- Evaluation rule for `cAdd` on finite costs. -/
theorem cAdd_ss (a b : ℚ) : cAdd (some a) (some b) = some (a + b) := rfl

/-- Evaluation rule: adding infinity on the right. -/
theorem cAdd_sn (a : ℚ) : cAdd (some a) none = none := rfl

/-- Evaluation rule: adding infinity on the left. -/
theorem cAdd_n (x : CostF) : cAdd none x = none := by cases x <;> rfl

/-- Evaluation rule for `cSub` on finite costs. -/
theorem cSub_ss (a b : ℚ) : cSub (some a) (some b) = some (a - b) := rfl

/-- Evaluation rule: infinity minus a finite cost. -/
theorem cSub_ns (a : ℚ) : cSub none (some a) = none := rfl

/-- Absolute-value-free evaluation rule for the change test on finite
costs. -/
theorem cDistGtB_eval (x y d : ℚ) :
    cDistGtB (some x) (some y) d
      = (decide (d < x - y) || decide (d < y - x)) := by
  simp only [cDistGtB]
  by_cases h : d < |x - y|
  · rw [decide_eq_true h]
    rcases lt_abs.mp h with h2 | h2
    · simp [decide_eq_true h2]
    · have h3 : d < y - x := by linarith
      simp [decide_eq_true h3]
  · rw [decide_eq_false h]
    have h1 : ¬ d < x - y := fun hc => h (lt_of_lt_of_le hc (le_abs_self _))
    have h2 : ¬ d < y - x := fun hc =>
      h (lt_of_lt_of_le hc (by rw [abs_sub_comm]; exact le_abs_self _))
    simp [h1, h2]

/-- Evaluation rule: two infinite extra costs do not count as changed. -/
theorem cDistGtB_nn (d : ℚ) : cDistGtB none none d = false := rfl

/-- Evaluation rule: finite versus infinite extra cost counts as
changed. -/
theorem cDistGtB_sn (a d : ℚ) : cDistGtB (some a) none d = true := rfl

/-- Evaluation rule: infinite versus finite extra cost counts as
changed. -/
theorem cDistGtB_ns (a d : ℚ) : cDistGtB none (some a) d = true := rfl

/-- Absolute-value-free evaluation rule for `ApproxEqual` on finite
costs. -/
theorem cApproxEqB_ss (x y tol : ℚ) :
    cApproxEqB (some x) (some y) tol
      = (decide (x = y) || decide (|x - y| ≤ tol * (|x| + |y|))) := rfl

/-- Evaluation rule: two infinities are approximately equal. -/
theorem cApproxEqB_nn (tol : ℚ) : cApproxEqB none none tol = true := rfl

/-- Evaluation rule: finite versus infinite is not approximately
equal. -/
theorem cApproxEqB_sn (a tol : ℚ) : cApproxEqB (some a) none tol = false := rfl

/-- Evaluation rule: infinite versus finite is not approximately
equal. -/
theorem cApproxEqB_ns (a tol : ℚ) : cApproxEqB none (some a) tol = false := rfl

/-- A sweep with `delta = 0` that reports no change leaves every kept
link within the lattice beam, measured in the store the sweep returns. -/
theorem PruneForwardLinksPass_sound (beam : ℚ) (toks : List TokId) :
    ∀ store, (PruneForwardLinksPass beam 0 store toks).2.1 = false →
      ∀ tid ∈ toks,
        ∀ l ∈ ((PruneForwardLinksPass beam 0 store toks).1 tid).links,
          cLtB (some beam)
            (LinkExtraCost (PruneForwardLinksPass beam 0 store toks).1 tid l)
            = false := by
  induction toks with
  | nil =>
    intro store _ tid htid
    cases htid
  | cons t rest ih =>
    intro store hch tid htid l hl
    have hflag : (PruneForwardLinksPass beam 0 store (t :: rest)).2.1
        = (cDistGtB (PruneLinksOfToken beam store t none (store t).links).2.1
            (store t).extra_cost 0
           ||
           (PruneForwardLinksPass beam 0
             (updateStore store t
               { store t with
                 links := (PruneLinksOfToken beam store t none (store t).links).1,
                 extra_cost :=
                   (PruneLinksOfToken beam store t none (store t).links).2.1 })
             rest).2.1) := rfl
    rw [hflag] at hch
    have hct : cDistGtB (PruneLinksOfToken beam store t none (store t).links).2.1
        (store t).extra_cost 0 = false := by
      cases hc : cDistGtB (PruneLinksOfToken beam store t none (store t).links).2.1
          (store t).extra_cost 0 with
      | false => rfl
      | true => rw [hc] at hch; simp at hch
    have hcr : (PruneForwardLinksPass beam 0
        (updateStore store t
          { store t with
            links := (PruneLinksOfToken beam store t none (store t).links).1,
            extra_cost :=
              (PruneLinksOfToken beam store t none (store t).links).2.1 })
        rest).2.1 = false := by
      rw [hct] at hch
      simpa using hch
    have hext : (PruneLinksOfToken beam store t none (store t).links).2.1
        = (store t).extra_cost := cDistGtB_zero_eq_false_iff.mp hct
    have step : (PruneForwardLinksPass beam 0 store (t :: rest)).1
        = (PruneForwardLinksPass beam 0
            (updateStore store t
              { store t with
                links := (PruneLinksOfToken beam store t none (store t).links).1,
                extra_cost :=
                  (PruneLinksOfToken beam store t none (store t).links).2.1 })
            rest).1 := rfl
    have hexAll : ∀ x,
        ((PruneForwardLinksPass beam 0
          (updateStore store t
            { store t with
              links := (PruneLinksOfToken beam store t none (store t).links).1,
              extra_cost :=
                (PruneLinksOfToken beam store t none (store t).links).2.1 })
          rest).1 x).extra_cost = (store x).extra_cost := by
      intro x
      rw [PruneForwardLinksPass_unchanged_extra beam rest _ hcr x]
      unfold updateStore
      by_cases hxt : x = t
      · rw [if_pos hxt]
        show (PruneLinksOfToken beam store t none (store t).links).2.1
          = (store x).extra_cost
        rw [hext, hxt]
      · rw [if_neg hxt]
    have htcAll : ∀ x,
        ((PruneForwardLinksPass beam 0
          (updateStore store t
            { store t with
              links := (PruneLinksOfToken beam store t none (store t).links).1,
              extra_cost :=
                (PruneLinksOfToken beam store t none (store t).links).2.1 })
          rest).1 x).total_cost = (store x).total_cost := by
      intro x
      rw [(PruneForwardLinksPass_preserves beam 0 rest _ x).1]
      exact updateStore_keep_tc store t _ _ x
    rw [step] at hl ⊢
    by_cases hmem : tid ∈ rest
    · exact ih _ hcr tid hmem l hl
    · have htt : tid = t := by
        rcases List.mem_cons.mp htid with h | h
        · exact h
        · exact absurd h hmem
      subst htt
      have hlinks : ((PruneForwardLinksPass beam 0
          (updateStore store tid
            { store tid with
              links := (PruneLinksOfToken beam store tid none (store tid).links).1,
              extra_cost :=
                (PruneLinksOfToken beam store tid none (store tid).links).2.1 })
          rest).1 tid)
          = updateStore store tid
            { store tid with
              links := (PruneLinksOfToken beam store tid none (store tid).links).1,
              extra_cost :=
                (PruneLinksOfToken beam store tid none (store tid).links).2.1 } tid :=
        PruneForwardLinksPass_not_mem beam 0 rest _ tid hmem
      rw [hlinks] at hl
      have hl2 : l ∈ (PruneLinksOfToken beam store tid none (store tid).links).1 := by
        simpa [updateStore] using hl
      have hkept := PruneLinksOfToken_kept beam store tid (store tid).links none l hl2
      rw [LinkExtraCost_congr _ store tid l htcAll hexAll]
      exact hkept

/-- When the exact pruning loop returns, every kept link of every frame
token passes the lattice-beam test in the returned store. -/
theorem PruneForwardLinksLoop_sound (beam : ℚ) (toks : List TokId) :
    ∀ fuel store st lp,
      PruneForwardLinksLoop beam 0 toks fuel store = some (st, lp) →
      ∀ tid ∈ toks, ∀ l ∈ (st tid).links,
        cLtB (some beam) (LinkExtraCost st tid l) = false := by
  intro fuel
  induction fuel with
  | zero =>
    intro store st lp h
    exact Option.noConfusion h
  | succ fuel ih =>
    intro store st lp h
    rw [PruneForwardLinksLoop] at h
    by_cases hch : (PruneForwardLinksPass beam 0 store toks).2.1 = true
    · rw [if_pos hch] at h
      cases hm : PruneForwardLinksLoop beam 0 toks fuel
          (PruneForwardLinksPass beam 0 store toks).1 with
      | none => rw [hm] at h; cases h
      | some p =>
        rw [hm] at h
        cases p with
        | mk st2 lp2 =>
          have hst : st2 = st := by
            injection h with h2
            exact congrArg Prod.fst h2
          rw [hst] at hm
          exact ih _ st lp2 hm
    · have hchf : (PruneForwardLinksPass beam 0 store toks).2.1 = false := by
        simpa using hch
      rw [if_neg hch] at h
      have hst : (PruneForwardLinksPass beam 0 store toks).1 = st := by
        injection h with h2
        exact congrArg Prod.fst h2
      intro tid htid l hl
      rw [← hst] at hl ⊢
      exact PruneForwardLinksPass_sound beam toks store hchf tid htid l hl

/-- C5 (amended): after `PruneForwardLinks(t, delta)` with `delta = 0`
(the tolerance `FinalizeDecoding` passes), every token on the frame and
every surviving forward link from it has clamped link extra cost at most
`lattice_beam`; every link over the beam was excised.  With `delta > 0`
the iteration may stop while a surviving link still exceeds the beam by
up to the tolerated slack, see the counterexample. -/
theorem PruneForwardLinks_spec (beam : ℚ) (toks : List TokId)
    (fuel : Nat) (store st : Store) (lp : Bool) (hbeam : 0 ≤ beam)
    (hrun : PruneForwardLinksLoop beam 0 toks fuel store = some (st, lp)) :
    ∀ tid ∈ toks, ∀ l ∈ (st tid).links,
      cLeB (cClamp0 (LinkExtraCost st tid l)) (some beam) = true := by
  intro tid htid l hl
  have h := PruneForwardLinksLoop_sound beam toks fuel store st lp hrun tid htid l hl
  cases hc : LinkExtraCost st tid l with
  | none =>
    rw [hc] at h
    cases h
  | some q =>
    rw [hc] at h
    have hq : q ≤ beam := by
      simpa [cLtB, not_lt] using h
    unfold cClamp0
    by_cases h0 : cLtB (some q) (some 0) = true
    · rw [if_pos h0]
      exact cLeB_some_some_iff.mpr hbeam
    · rw [if_neg h0]
      exact cLeB_some_some_iff.mpr hq

/-- C5 counterexample: with `delta = 1/10` and `lattice_beam = 10` the
sweep of `pflStore` converges after one pass, yet token 0's surviving link
has clamped extra cost `201/20 > 10` in the resulting store — the claim
as stated fails for positive `delta`. -/
theorem PruneForwardLinks_delta_cex :
    PruneForwardLinksLoop 10 (1 / 10) [0, 1] 1 pflStore
      = some (pflAfter1, false) ∧
    (⟨1, 0, 0, 5, 0⟩ : ForwardLink) ∈ (pflAfter1 0).links ∧
    cLeB (cClamp0 (LinkExtraCost pflAfter1 0 ⟨1, 0, 0, 5, 0⟩)) (some 10)
      = false := by
  refine ⟨?_, ?_, ?_⟩
  · norm_num [PruneForwardLinksLoop, PruneForwardLinksPass, PruneLinksOfToken,
      LinkExtraCost, cClamp0, cMin, cLtB_ss, cLtB_sn, cLtB_ns, cAdd_ss, cAdd_sn,
      cAdd_n, cDistGtB_eval, cDistGtB_nn, cDistGtB_sn, cDistGtB_ns, updateStore,
      pflStore, pflAfter1]
  · norm_num [pflAfter1, updateStore]
  · norm_num [LinkExtraCost, cClamp0, cLeB_ss, cLtB_ss, cAdd_ss, pflAfter1,
      updateStore, pflStore]

/-- Witness for C5: the exact (`delta = 0`) sweep of `pflStore` converges
in three passes to `pflAfter3`, and the surviving link of token 1 indeed
satisfies the lattice-beam bound. -/
theorem PruneForwardLinks_spec_witness :
    PruneForwardLinksLoop 10 0 [0, 1] 3 pflStore = some (pflAfter3, true) ∧
    cLeB (cClamp0 (LinkExtraCost pflAfter3 1 ⟨2, 1, 0, 101 / 20, 0⟩))
      (some 10) = true := by
  have hrun : PruneForwardLinksLoop 10 0 [0, 1] 3 pflStore
      = some (pflAfter3, true) := by
    norm_num [PruneForwardLinksLoop, PruneForwardLinksPass, PruneLinksOfToken,
      LinkExtraCost, cClamp0, cMin, cLtB_ss, cLtB_sn, cLtB_ns, cAdd_ss, cAdd_sn,
      cAdd_n, cDistGtB_eval, cDistGtB_nn, cDistGtB_sn, cDistGtB_ns, updateStore,
      pflStore, pflAfter1, pflAfter2, pflAfter3]
  refine ⟨hrun, ?_⟩
  exact PruneForwardLinks_spec 10 [0, 1] 3 pflStore pflAfter3 true
    (by norm_num) hrun 1 (by simp) ⟨2, 1, 0, 101 / 20, 0⟩
    (by norm_num [pflAfter3, pflAfter2, updateStore])

/-- `FindOrAddToken` never touches the work queue. -/
theorem FindOrAddToken_queue (s : DecState) (state t : Nat) (tc : ℚ)
    (bp : Option TokId) :
    (FindOrAddToken s state t tc bp).1.queue = s.queue := by
  unfold FindOrAddToken
  split
  · rfl
  · dsimp only
    split
    · rfl
    · rfl

/-- `FindOrAddToken` never decreases the allocator's next id. -/
theorem FindOrAddToken_nextId_mono (s : DecState) (state t : Nat) (tc : ℚ)
    (bp : Option TokId) :
    s.nextId ≤ (FindOrAddToken s state t tc bp).1.nextId := by
  unfold FindOrAddToken
  split
  · exact Nat.le_succ _
  · dsimp only
    split
    · exact le_refl _
    · exact le_refl _

/-- `FindOrAddToken` leaves a live token (id below the allocator) whose
cost the incoming cost does not beat fully untouched. -/
theorem FindOrAddToken_store_keep (s : DecState) (state t : Nat) (tc : ℚ)
    (bp : Option TokId) (x : TokId) (hx : x < s.nextId)
    (hcost : ¬ tc < (s.store x).total_cost) :
    (FindOrAddToken s state t tc bp).1.store x = s.store x := by
  unfold FindOrAddToken
  split
  · show updateStore s.store s.nextId _ x = s.store x
    unfold updateStore
    rw [if_neg (Nat.ne_of_lt hx)]
  next tid _ =>
    dsimp only
    split
    next h =>
      show updateStore s.store tid _ x = s.store x
      unfold updateStore
      by_cases hxt : x = tid
      · subst hxt
        exact absurd h hcost
      · rw [if_neg hxt]
    next h => rfl

/-- The per-arc behavior of the non-emitting expander: a qualifying
epsilon arc pushes its destination exactly when `FindOrAddToken` reports
`changed`, a non-qualifying or non-epsilon arc changes nothing. -/
theorem NEArcStep_cases (cutoff : ℚ) (t : Nat) (tid : TokId) (s : DecState)
    (arc : WfstArc) :
    (arc.ilabel = 0 → (s.store tid).total_cost + arc.weight < cutoff →
      (NEArcStep cutoff t tid s arc).queue
        = (if (FindOrAddToken s arc.dst t
              ((s.store tid).total_cost + arc.weight) (some tid)).2.2
           then arc.dst :: s.queue else s.queue)) ∧
    (arc.ilabel = 0 → ¬ (s.store tid).total_cost + arc.weight < cutoff →
      NEArcStep cutoff t tid s arc = s) ∧
    (arc.ilabel ≠ 0 → NEArcStep cutoff t tid s arc = s) := by
  refine ⟨?_, ?_, ?_⟩
  · intro h0 hlt
    unfold NEArcStep
    rw [if_pos h0, if_pos hlt]
    by_cases hch : (FindOrAddToken s arc.dst t
        ((s.store tid).total_cost + arc.weight) (some tid)).2.2 = true
    · rw [if_pos hch, if_pos hch]
      show arc.dst :: (FindOrAddToken s arc.dst t
        ((s.store tid).total_cost + arc.weight) (some tid)).1.queue
        = arc.dst :: s.queue
      rw [FindOrAddToken_queue]
    · rw [if_neg hch, if_neg hch]
      show (FindOrAddToken s arc.dst t
        ((s.store tid).total_cost + arc.weight) (some tid)).1.queue = s.queue
      exact FindOrAddToken_queue s arc.dst t _ (some tid)
  · intro h0 hge
    unfold NEArcStep
    rw [if_pos h0, if_neg hge]
  · intro hne
    unfold NEArcStep
    rw [if_neg hne]

/-- The arc fold of the non-emitting expander, for a popped token whose
epsilon arcs all have non-negative weight: the token's cost is untouched,
its id stays below the allocator, and its link list gains exactly one
epsilon link (acoustic cost `0`, the arc's output label and weight) per
qualifying arc, in front of whatever was there. -/
theorem NEfold_links (cutoff : ℚ) (t : Nat) (tid : TokId)
    (arcs : List WfstArc) :
    ∀ s : DecState, (∀ a ∈ arcs, 0 ≤ a.weight) → tid < s.nextId →
      ((arcs.foldl (NEArcStep cutoff t tid) s).store tid).total_cost
        = (s.store tid).total_cost ∧
      tid < (arcs.foldl (NEArcStep cutoff t tid) s).nextId ∧
      ∃ pre,
        ((arcs.foldl (NEArcStep cutoff t tid) s).store tid).links
          = pre ++ (s.store tid).links ∧
        pre.length
          = (arcs.filter (qualifiesB (s.store tid).total_cost cutoff)).length ∧
        ∀ l ∈ pre, l.ilabel = 0 ∧ l.acoustic_cost = 0 ∧
          ∃ a ∈ arcs, a.ilabel = 0 ∧
            (s.store tid).total_cost + a.weight < cutoff ∧
            l.olabel = a.olabel ∧ l.graph_cost = a.weight := by
  induction arcs with
  | nil =>
    intro s _ hid
    exact ⟨rfl, hid, [], by simp, by simp, by simp⟩
  | cons a rest ih =>
    intro s hw hid
    have hwa : 0 ≤ a.weight := hw a (List.mem_cons_self _ _)
    have hwrest : ∀ b ∈ rest, 0 ≤ b.weight :=
      fun b hb => hw b (List.mem_cons_of_mem _ hb)
    by_cases h0 : a.ilabel = 0
    · by_cases hlt : (s.store tid).total_cost + a.weight < cutoff
      · -- qualifying arc: one link is prepended
        have hcost : ¬ (s.store tid).total_cost + a.weight
            < (s.store tid).total_cost := by
          intro hc
          linarith
        have hkeep := FindOrAddToken_store_keep s a.dst t
          ((s.store tid).total_cost + a.weight) (some tid) tid hid hcost
        have hmono := FindOrAddToken_nextId_mono s a.dst t
          ((s.store tid).total_cost + a.weight) (some tid)
        -- the state after this arc
        have hstep : ∀ st1 : DecState,
            st1 = NEArcStep cutoff t tid s a →
            (st1.store tid).links
              = (⟨(FindOrAddToken s a.dst t
                    ((s.store tid).total_cost + a.weight) (some tid)).2.1,
                  0, a.olabel, a.weight, 0⟩ : ForwardLink)
                :: (s.store tid).links ∧
            (st1.store tid).total_cost = (s.store tid).total_cost ∧
            tid < st1.nextId := by
          intro st1 hst1
          unfold NEArcStep at hst1
          rw [if_pos h0, if_pos hlt] at hst1
          by_cases hch : (FindOrAddToken s a.dst t
              ((s.store tid).total_cost + a.weight) (some tid)).2.2 = true
          · rw [if_pos hch] at hst1
            subst hst1
            refine ⟨?_, ?_, ?_⟩
            · show ((updateStore (FindOrAddToken s a.dst t
                ((s.store tid).total_cost + a.weight) (some tid)).1.store tid _)
                  tid).links = _
              unfold updateStore
              rw [if_pos rfl]
              rw [hkeep]
            · show ((updateStore (FindOrAddToken s a.dst t
                ((s.store tid).total_cost + a.weight) (some tid)).1.store tid _)
                  tid).total_cost = _
              unfold updateStore
              rw [if_pos rfl]
              rw [hkeep]
            · exact Nat.lt_of_lt_of_le hid hmono
          · rw [if_neg hch] at hst1
            subst hst1
            refine ⟨?_, ?_, ?_⟩
            · show ((updateStore (FindOrAddToken s a.dst t
                ((s.store tid).total_cost + a.weight) (some tid)).1.store tid _)
                  tid).links = _
              unfold updateStore
              rw [if_pos rfl]
              rw [hkeep]
            · show ((updateStore (FindOrAddToken s a.dst t
                ((s.store tid).total_cost + a.weight) (some tid)).1.store tid _)
                  tid).total_cost = _
              unfold updateStore
              rw [if_pos rfl]
              rw [hkeep]
            · exact Nat.lt_of_lt_of_le hid hmono
        obtain ⟨hlinks1, htc1, hid1⟩ := hstep (NEArcStep cutoff t tid s a) rfl
        obtain ⟨htc2, hid2, pre2, hl2, hlen2, hprop2⟩ :=
          ih (NEArcStep cutoff t tid s a) hwrest hid1
        refine ⟨?_, ?_, ?_⟩
        · show ((rest.foldl (NEArcStep cutoff t tid)
            (NEArcStep cutoff t tid s a)).store tid).total_cost
              = (s.store tid).total_cost
          rw [htc2, htc1]
        · exact hid2
        · refine ⟨pre2 ++ [⟨(FindOrAddToken s a.dst t
              ((s.store tid).total_cost + a.weight) (some tid)).2.1,
              0, a.olabel, a.weight, 0⟩], ?_, ?_, ?_⟩
          · show ((rest.foldl (NEArcStep cutoff t tid)
              (NEArcStep cutoff t tid s a)).store tid).links = _
            rw [hl2, hlinks1]
            simp
          · have hq : qualifiesB (s.store tid).total_cost cutoff a = true := by
              simp [qualifiesB, h0, hlt]
            have hfc : (a :: rest).filter (qualifiesB (s.store tid).total_cost cutoff)
                = a :: rest.filter (qualifiesB (s.store tid).total_cost cutoff) := by
              rw [List.filter_cons, if_pos hq]
            rw [hfc]
            simp only [List.length_append, List.length_cons, List.length_singleton]
            rw [hlen2, htc1]
            simp
          · intro l hl
            rcases List.mem_append.mp hl with hl | hl
            · obtain ⟨e1, e2, b, hb, e3, e4, e5, e6⟩ := hprop2 l hl
              refine ⟨e1, e2, b, List.mem_cons_of_mem _ hb, e3, ?_, e5, e6⟩
              rw [← htc1]
              exact e4
            · rcases List.mem_singleton.mp hl with rfl
              exact ⟨rfl, rfl, a, List.mem_cons_self _ _, h0, hlt, rfl, rfl⟩
      · -- epsilon arc over the cutoff: nothing happens
        have hno : NEArcStep cutoff t tid s a = s :=
          (NEArcStep_cases cutoff t tid s a).2.1 h0 hlt
        obtain ⟨htc2, hid2, pre2, hl2, hlen2, hprop2⟩ := ih s hwrest hid
        have hq : qualifiesB (s.store tid).total_cost cutoff a = false := by
          simp [qualifiesB, h0, hlt]
        refine ⟨?_, ?_, pre2, ?_, ?_, ?_⟩
        · show ((rest.foldl (NEArcStep cutoff t tid)
            (NEArcStep cutoff t tid s a)).store tid).total_cost = _
          rw [hno]
          exact htc2
        · show tid < (rest.foldl (NEArcStep cutoff t tid)
            (NEArcStep cutoff t tid s a)).nextId
          rw [hno]
          exact hid2
        · show ((rest.foldl (NEArcStep cutoff t tid)
            (NEArcStep cutoff t tid s a)).store tid).links = _
          rw [hno]
          exact hl2
        · rw [List.filter_cons, hq]
          exact hlen2
        · intro l hl
          obtain ⟨e1, e2, b, hb, e3, e4, e5, e6⟩ := hprop2 l hl
          exact ⟨e1, e2, b, List.mem_cons_of_mem _ hb, e3, e4, e5, e6⟩
    · -- non-epsilon arc: skipped by the expander
      have hno : NEArcStep cutoff t tid s a = s :=
        (NEArcStep_cases cutoff t tid s a).2.2 h0
      obtain ⟨htc2, hid2, pre2, hl2, hlen2, hprop2⟩ := ih s hwrest hid
      have hq : qualifiesB (s.store tid).total_cost cutoff a = false := by
        simp [qualifiesB, h0]
      refine ⟨?_, ?_, pre2, ?_, ?_, ?_⟩
      · show ((rest.foldl (NEArcStep cutoff t tid)
          (NEArcStep cutoff t tid s a)).store tid).total_cost = _
        rw [hno]
        exact htc2
      · show tid < (rest.foldl (NEArcStep cutoff t tid)
          (NEArcStep cutoff t tid s a)).nextId
        rw [hno]
        exact hid2
      · show ((rest.foldl (NEArcStep cutoff t tid)
          (NEArcStep cutoff t tid s a)).store tid).links = _
        rw [hno]
        exact hl2
      · rw [List.filter_cons, hq]
        exact hlen2
      · intro l hl
        obtain ⟨e1, e2, b, hb, e3, e4, e5, e6⟩ := hprop2 l hl
        exact ⟨e1, e2, b, List.mem_cons_of_mem _ hb, e3, e4, e5, e6⟩

/-- C7: the non-emitting expander's loop body for a popped state whose
token is indexed, with non-negative epsilon-arc weights and a live
allocator.  If the token's cost exceeds the cutoff the state is skipped
outright; otherwise the token's links are replaced by exactly one
`ilabel = 0`, zero-acoustic-cost link per epsilon arc whose
`total = tok.total_cost + arc.weight` is strictly below the cutoff (the
previous links all deleted); and per arc, the destination state is pushed
onto the work queue exactly when `FindOrAddToken` reports
`changed = true`. -/
theorem ProcessNonemitting_step_spec (arcsOf : Nat → List WfstArc)
    (cutoff : ℚ) (t : Nat) (s : DecState) (state : Nat) (tid : TokId)
    (hfound : lookupA s.tokenSet state = some tid)
    (hw : ∀ a ∈ arcsOf state, 0 ≤ a.weight)
    (hid : tid < s.nextId) :
    (cutoff < (s.store tid).total_cost →
      ProcessNonemittingStep arcsOf cutoff t s state = s) ∧
    (¬ cutoff < (s.store tid).total_cost →
      (∀ l ∈ ((ProcessNonemittingStep arcsOf cutoff t s state).store tid).links,
        l.ilabel = 0 ∧ l.acoustic_cost = 0 ∧
        ∃ a ∈ arcsOf state, a.ilabel = 0 ∧
          (s.store tid).total_cost + a.weight < cutoff ∧
          l.olabel = a.olabel ∧ l.graph_cost = a.weight) ∧
      ((ProcessNonemittingStep arcsOf cutoff t s state).store tid).links.length
        = ((arcsOf state).filter
            (qualifiesB (s.store tid).total_cost cutoff)).length) ∧
    (∀ s1 : DecState, ∀ a : WfstArc, a.ilabel = 0 →
      (s1.store tid).total_cost + a.weight < cutoff →
      (NEArcStep cutoff t tid s1 a).queue
        = (if (FindOrAddToken s1 a.dst t
              ((s1.store tid).total_cost + a.weight) (some tid)).2.2
           then a.dst :: s1.queue else s1.queue)) := by
  refine ⟨?_, ?_, ?_⟩
  · intro hskip
    unfold ProcessNonemittingStep
    split
    next heq => rfl
    next tid2 heq =>
      rw [hfound] at heq
      injection heq with heq2
      subst heq2
      rw [if_pos hskip]
  · intro hns
    have hstep : ProcessNonemittingStep arcsOf cutoff t s state
        = (arcsOf state).foldl (NEArcStep cutoff t tid) (delinkTok s tid) := by
      unfold ProcessNonemittingStep delinkTok
      split
      next heq => rw [hfound] at heq; cases heq
      next tid2 heq =>
        rw [hfound] at heq
        injection heq with heq2
        subst heq2
        rw [if_neg hns]
    have hnil : ((delinkTok s tid).store tid).links = [] := by
      show ((updateStore s.store tid _) tid).links = []
      unfold updateStore
      rw [if_pos rfl]
    have htcs : ((delinkTok s tid).store tid).total_cost
        = (s.store tid).total_cost := by
      show ((updateStore s.store tid _) tid).total_cost = _
      unfold updateStore
      rw [if_pos rfl]
    obtain ⟨htc, hid2, pre, hl, hlen, hprop⟩ :=
      NEfold_links cutoff t tid (arcsOf state) (delinkTok s tid) hw hid
    rw [hnil, List.append_nil] at hl
    constructor
    · intro l hl2
      rw [hstep, hl] at hl2
      obtain ⟨e1, e2, a, ha, e3, e4, e5, e6⟩ := hprop l hl2
      rw [htcs] at e4
      exact ⟨e1, e2, a, ha, e3, e4, e5, e6⟩
    · rw [hstep, hl, hlen, htcs]
  · intro s1 a h0 hlt
    exact (NEArcStep_cases cutoff t tid s1 a).1 h0 hlt

/-- Witness for C7: at `oneTokState` popping state 5 with cutoff `-1` the
state is skipped; with cutoff `10`, of the two epsilon arcs only the one
of weight `1` qualifies, and exactly one link is created. -/
theorem ProcessNonemitting_step_spec_witness :
    ProcessNonemittingStep neArcsOf (-1) 0 oneTokState 5 = oneTokState ∧
    ((ProcessNonemittingStep neArcsOf 10 0 oneTokState 5).store 0).links.length
      = ((neArcsOf 5).filter
          (qualifiesB (oneTokState.store 0).total_cost 10)).length := by
  constructor
  · exact (ProcessNonemitting_step_spec neArcsOf (-1) 0 oneTokState 5 0
      (by decide) (by decide) (by decide)).1 (by norm_num [oneTokState])
  · exact ((ProcessNonemitting_step_spec neArcsOf 10 0 oneTokState 5 0
      (by decide) (by decide) (by decide)).2.1 (by norm_num [oneTokState])).2

/-- `PruneForwardLinksFinal` fails its assertion on an already finalized
decoder (`ComputeFinalCosts` asserts `!decoding_finalized_`). -/
theorem PruneForwardLinksFinal_requires_not_finalized (finalOf : Nat → CostF)
    (beam : ℚ) (fuel : Nat) (s : DecState) (hfin : s.decodingFinalized = true) :
    PruneForwardLinksFinal finalOf beam fuel s = none := by
  unfold PruneForwardLinksFinal
  by_cases he : s.tokenNet.isEmpty = true
  · rw [if_pos he]
  · rw [if_neg he, if_pos hfin]

/-- When `PruneForwardLinksFinal` succeeds it has set
`decoding_finalized_` and cleared the Active Index. -/
theorem PruneForwardLinksFinal_sets_flag (finalOf : Nat → CostF)
    (beam : ℚ) (fuel : Nat) (s s2 : DecState)
    (h : PruneForwardLinksFinal finalOf beam fuel s = some s2) :
    s2.decodingFinalized = true ∧ s2.tokenSet = [] := by
  unfold PruneForwardLinksFinal at h
  by_cases he : s.tokenNet.isEmpty = true
  · rw [if_pos he] at h
    cases h
  · rw [if_neg he] at h
    by_cases hf : s.decodingFinalized = true
    · rw [if_pos hf] at h
      cases h
    · rw [if_neg hf] at h
      dsimp only at h
      split at h
      next => cases h
      next st heq =>
        cases h
        exact ⟨rfl, rfl⟩

/-- The backward sweep never changes the `decoding_finalized_` flag. -/
theorem FinalizeSweep_keeps_flag (beam : ℚ) (fuel : Nat) :
    ∀ (n : Nat) (s s2 : DecState), FinalizeSweep beam fuel n s = some s2 →
      s2.decodingFinalized = s.decodingFinalized := by
  intro n
  induction n with
  | zero =>
    intro s s2 h
    cases h
    rfl
  | succ n ih =>
    intro s s2 h
    rw [FinalizeSweep] at h
    cases hm : PruneForwardLinksLoop beam 0 (s.tokenNet.getD n []) fuel s.store with
    | none =>
      rw [hm] at h
      cases h
    | some p =>
      rw [hm] at h
      cases p with
      | mk st lp =>
        dsimp only at h
        have hrec := ih _ s2 h
        exact hrec

/-- C2 (amended): `FinalizeDecoding` requires a not-yet-finalized decoder:
a successful call sets `decoding_finalized_`, and a second call then fails
the assertion `!decoding_finalized_` inside `ComputeFinalCosts` instead of
being a no-op — it is not idempotent. -/
theorem FinalizeDecoding_not_idempotent (finalOf : Nat → CostF) (beam : ℚ)
    (fuel : Nat) (s : DecState) :
    (s.decodingFinalized = true → FinalizeDecoding finalOf beam fuel s = none) ∧
    (∀ s1, FinalizeDecoding finalOf beam fuel s = some s1 →
      s1.decodingFinalized = true ∧
      FinalizeDecoding finalOf beam fuel s1 = none) := by
  have hfail : ∀ s0 : DecState, s0.decodingFinalized = true →
      FinalizeDecoding finalOf beam fuel s0 = none := by
    intro s0 hf
    unfold FinalizeDecoding
    rw [PruneForwardLinksFinal_requires_not_finalized finalOf beam fuel s0 hf]
  refine ⟨hfail s, ?_⟩
  intro s1 h
  unfold FinalizeDecoding at h
  dsimp only at h
  cases hp : PruneForwardLinksFinal finalOf beam fuel s with
  | none =>
    rw [hp] at h
    cases h
  | some s2 =>
    rw [hp] at h
    dsimp only at h
    cases hw : FinalizeSweep beam fuel (s.tokenNet.length - 1) s2 with
    | none =>
      rw [hw] at h
      cases h
    | some s3 =>
      rw [hw] at h
      dsimp only at h
      cases h
      have h2 := (PruneForwardLinksFinal_sets_flag finalOf beam fuel s s2 hp).1
      have h3 := FinalizeSweep_keeps_flag beam fuel _ s2 s3 hw
      have hflag : s3.decodingFinalized = true := h3.trans h2
      constructor
      · exact hflag
      · exact hfail _ hflag

/-- C2 counterexample: finalizing `oneTokState` once succeeds, while
calling `finalize_decoding` twice in a row aborts (assertion failure,
modelled as `none`) rather than having the same effect as one call. -/
theorem FinalizeDecoding_cex :
    (FinalizeDecoding fiveFinalOracle 10 5 oneTokState).isSome = true ∧
    (FinalizeDecoding fiveFinalOracle 10 5 oneTokState).bind
      (FinalizeDecoding fiveFinalOracle 10 5) = none := by
  constructor
  · norm_num [FinalizeDecoding, PruneForwardLinksFinal, PruneForwardLinksFinalLoop,
      PruneForwardLinksFinalPass, PruneLinksOfToken, LinkExtraCost,
      ComputeFinalCosts, ComputeFinalCostsLoop, FinalizeSweep,
      PruneForwardLinksLoop, PruneForwardLinksPass, PruneTokenList, cMin, cClamp0,
      cLtB_ss, cLtB_sn, cLtB_ns, cLeB_ss, cLeB_n, cAdd_ss, cAdd_sn, cAdd_n,
      cSub_ss, cSub_ns, cDistGtB_eval, cDistGtB_nn, cDistGtB_sn, cDistGtB_ns,
      cApproxEqB_ss, cApproxEqB_nn, cApproxEqB_sn, cApproxEqB_ns, lookupA,
      updateStore, oneTokState, fiveFinalOracle]
  · norm_num [FinalizeDecoding, PruneForwardLinksFinal, PruneForwardLinksFinalLoop,
      PruneForwardLinksFinalPass, PruneLinksOfToken, LinkExtraCost,
      ComputeFinalCosts, ComputeFinalCostsLoop, FinalizeSweep,
      PruneForwardLinksLoop, PruneForwardLinksPass, PruneTokenList, cMin, cClamp0,
      cLtB_ss, cLtB_sn, cLtB_ns, cLeB_ss, cLeB_n, cAdd_ss, cAdd_sn, cAdd_n,
      cSub_ss, cSub_ns, cDistGtB_eval, cDistGtB_nn, cDistGtB_sn, cDistGtB_ns,
      cApproxEqB_ss, cApproxEqB_nn, cApproxEqB_sn, cApproxEqB_ns, lookupA,
      updateStore, oneTokState, fiveFinalOracle]

/-- Witness for C2: a decoder already finalized is rejected outright, and
a successful first call on `oneTokState` indeed comes back with
`decoding_finalized_` set. -/
theorem FinalizeDecoding_not_idempotent_witness :
    FinalizeDecoding fiveFinalOracle 10 5
      { oneTokState with decodingFinalized := true } = none ∧
    (FinalizeDecoding fiveFinalOracle 10 5 oneTokState).map
      DecState.decodingFinalized = some true := by
  constructor
  · exact (FinalizeDecoding_not_idempotent fiveFinalOracle 10 5
      { oneTokState with decodingFinalized := true }).1 rfl
  · have hs : (FinalizeDecoding fiveFinalOracle 10 5 oneTokState).isSome
        = true := by
      norm_num [FinalizeDecoding, PruneForwardLinksFinal,
        PruneForwardLinksFinalLoop, PruneForwardLinksFinalPass,
        PruneLinksOfToken, LinkExtraCost, ComputeFinalCosts,
        ComputeFinalCostsLoop, FinalizeSweep, PruneForwardLinksLoop,
        PruneForwardLinksPass, PruneTokenList, cMin, cClamp0, cLtB_ss, cLtB_sn,
        cLtB_ns, cLeB_ss, cLeB_n, cAdd_ss, cAdd_sn, cAdd_n, cSub_ss, cSub_ns,
        cDistGtB_eval, cDistGtB_nn, cDistGtB_sn, cDistGtB_ns, cApproxEqB_ss,
        cApproxEqB_nn, cApproxEqB_sn, cApproxEqB_ns, lookupA, updateStore,
        oneTokState, fiveFinalOracle]
    obtain ⟨s1, hs1⟩ := Option.isSome_iff_exists.mp hs
    rw [hs1]
    have h2 := ((FinalizeDecoding_not_idempotent fiveFinalOracle 10 5
      oneTokState).2 s1 hs1).1
    simp [h2]

/-- The state-allocation fold of `GetRawLattice` touches only the state
count and the token map, never the start state, arcs or finals. -/
theorem GRLAddStates_keep (sorted : List (Option TokId)) :
    ∀ p : RawLat × List (TokId × Nat),
      ((sorted.foldl
        (fun (acc : RawLat × List (TokId × Nat)) o =>
          match o with
          | none => acc
          | some tk =>
            ({ acc.1 with numStates := acc.1.numStates + 1 },
             acc.2 ++ [(tk, acc.1.numStates)])) p).1.start = p.1.start) ∧
      ((sorted.foldl
        (fun (acc : RawLat × List (TokId × Nat)) o =>
          match o with
          | none => acc
          | some tk =>
            ({ acc.1 with numStates := acc.1.numStates + 1 },
             acc.2 ++ [(tk, acc.1.numStates)])) p).1.arcs = p.1.arcs) ∧
      ((sorted.foldl
        (fun (acc : RawLat × List (TokId × Nat)) o =>
          match o with
          | none => acc
          | some tk =>
            ({ acc.1 with numStates := acc.1.numStates + 1 },
             acc.2 ++ [(tk, acc.1.numStates)])) p).1.finals = p.1.finals) := by
  induction sorted with
  | nil => intro p; exact ⟨rfl, rfl, rfl⟩
  | cons o rest ih =>
    intro p
    cases o with
    | none =>
      obtain ⟨h1, h2, h3⟩ := ih p
      exact ⟨h1, h2, h3⟩
    | some tk =>
      obtain ⟨h1, h2, h3⟩ := ih
        ({ p.1 with numStates := p.1.numStates + 1 },
         p.2 ++ [(tk, p.1.numStates)])
      exact ⟨h1, h2, h3⟩

/-- The state-creation loop of `GetRawLattice` stops with `false` at the
first empty frame, provided every earlier frame is non-empty and
topologically sorts without hitting the epsilon-cycle cap; the start
state, arcs and finals are still those of the incoming lattice. -/
theorem GRLCreateStates_empty_frame (store : Store) :
    ∀ (pre post : List (List TokId)) (lat : RawLat)
      (tokMap : List (TokId × Nat)),
      (∀ fr ∈ pre, fr ≠ [] ∧ TopSortTokens store fr ≠ none) →
      ∃ lat2 tm2,
        GRLCreateStates store (pre ++ [] :: post) lat tokMap
          = some (false, lat2, tm2) ∧
        lat2.start = lat.start ∧ lat2.arcs = lat.arcs ∧
        lat2.finals = lat.finals := by
  intro pre
  induction pre with
  | nil =>
    intro post lat tokMap _
    exact ⟨lat, tokMap, rfl, rfl, rfl, rfl⟩
  | cons fr rest ih =>
    intro post lat tokMap hpre
    obtain ⟨hne, hts⟩ := hpre fr (List.mem_cons_self _ _)
    have hrest : ∀ g ∈ rest, g ≠ [] ∧ TopSortTokens store g ≠ none :=
      fun g hg => hpre g (List.mem_cons_of_mem _ hg)
    have hempty : fr.isEmpty = false := by
      cases fr with
      | nil => exact absurd rfl hne
      | cons a l => rfl
    show ∃ lat2 tm2,
      GRLCreateStates store (fr :: (rest ++ [] :: post)) lat tokMap
        = some (false, lat2, tm2) ∧ _
    rw [GRLCreateStates]
    rw [hempty]
    simp only [Bool.false_eq_true, if_false]
    cases hsort : TopSortTokens store fr with
    | none => exact absurd hsort hts
    | some sorted =>
      obtain ⟨k1, k2, k3⟩ := GRLAddStates_keep sorted (lat, tokMap)
      obtain ⟨lat2, tm2, e1, e2, e3, e4⟩ := ih post
        ((sorted.foldl
          (fun (acc : RawLat × List (TokId × Nat)) o =>
            match o with
            | none => acc
            | some tk =>
              ({ acc.1 with numStates := acc.1.numStates + 1 },
               acc.2 ++ [(tk, acc.1.numStates)])) (lat, tokMap)).1)
        ((sorted.foldl
          (fun (acc : RawLat × List (TokId × Nat)) o =>
            match o with
            | none => acc
            | some tk =>
              ({ acc.1 with numStates := acc.1.numStates + 1 },
               acc.2 ++ [(tk, acc.1.numStates)])) (lat, tokMap)).2)
        hrest
      refine ⟨lat2, tm2, e1, ?_, ?_, ?_⟩
      · rw [e2, k1]
      · rw [e3, k2]
      · rw [e4, k3]

/-- C9 (amended): when some frame of the token network has no surviving
tokens, `GetRawLatticePruned` returns `false` with an empty output
lattice, and `GetRawLattice` returns `false` instead of aborting — but
its output is not empty in general: it keeps the states allocated for the
frames before the first empty one (with no start state, no arcs and no
final weights).  Both functions are `const`: the decoder state is read
only, so the decoder continues to accept operations. -/
theorem GetRawLattice_collapse (finalOf : Nat → CostF) (s : DecState)
    (useFinal : Bool) (beam : ℚ) (fuel : Nat)
    (hcall : ¬ (s.decodingFinalized = true ∧ useFinal = false))
    (hlen : 1 < s.tokenNet.length) :
    (s.tokenNet.any (fun fr => fr.isEmpty) = true →
      GetRawLatticePruned finalOf s useFinal beam fuel
        = some (false, ⟨0, none, [], []⟩)) ∧
    (∀ pre post, s.tokenNet = pre ++ [] :: post →
      (∀ fr ∈ pre, fr ≠ [] ∧ TopSortTokens s.store fr ≠ none) →
      ∃ lat, GetRawLattice finalOf s useFinal = some (false, lat) ∧
        lat.start = none ∧ lat.arcs = [] ∧ lat.finals = []) := by
  have hnle : ¬ s.tokenNet.length ≤ 1 := not_le.mpr hlen
  constructor
  · intro hany
    unfold GetRawLatticePruned
    rw [if_neg hcall]
    dsimp only
    rw [if_neg hnle, if_pos hany]
  · intro pre post hnet hpre
    unfold GetRawLattice
    rw [if_neg hcall]
    dsimp only
    rw [if_neg hnle]
    rw [hnet]
    obtain ⟨lat2, tm2, e1, e2, e3, e4⟩ :=
      GRLCreateStates_empty_frame s.store pre post ⟨0, none, [], []⟩ [] hpre
    rw [e1]
    exact ⟨lat2, rfl, e2, e3, e4⟩

/-- C9 counterexample: on `collapseState` (frame 0 holds one token,
frame 1 is empty) `GetRawLattice` returns `false` but the output lattice
already holds the state created for frame 0 — it is not empty. -/
theorem GetRawLattice_collapse_cex :
    (GetRawLattice noFinalOracle collapseState false).map
      (fun r => (r.1, r.2.numStates, r.2.arcs.length, r.2.start))
      = some (false, 1, 0, none) := by
  rfl

/-- Witness for C9: both parts at `collapseState` — the pruned lattice
routine returns `false` with an empty lattice, and the raw one returns
`false`. -/
theorem GetRawLattice_collapse_witness :
    GetRawLatticePruned noFinalOracle collapseState false 10 10
      = some (false, ⟨0, none, [], []⟩) ∧
    (GetRawLattice noFinalOracle collapseState false).map Prod.fst
      = some false := by
  have h := GetRawLattice_collapse noFinalOracle collapseState false 10 10
    (by simp [collapseState]) (by simp [collapseState])
  constructor
  · exact h.1 (by simp [collapseState])
  · obtain ⟨lat, hlat, -, -, -⟩ := h.2 [[0]] []
      (by simp [collapseState]) (by decide)
    rw [hlat]
    rfl

end DecCoreM
